import Mathlib

/-!
A verification development for the core of a chess engine: an
iterative-deepening minimax/alpha-beta search (`Algorithm::node_eval_recursive`,
`Algorithm::next_action`, `Algorithm::next_action_iterative_deepening` in
`src/algorithms/the_algorithm.rs`), its helper modules
(`src/modules/search_extensions.rs`, `src/algorithms/eval.rs`), the
pair-outcome combination of the competition harness (`src/pitter/logic.rs`),
and the tapered-PESTO piece-square-table computations (full and incremental)
of `Algorithm::eval` / `node_eval_recursive`.

The chess rules library is an external collaborator of the program; the search
is therefore embedded parametrically over a `Rules` interface providing legal
move enumeration, move application, side to move, checker count and the static
leaf evaluation.  Scores are `f32` in the source; they are modelled as `ℚ`,
with the saturation constants `f32::MIN` / `f32::MAX` modelled by the exact
value of the largest finite `f32`.  Wall-clock time is modelled by a poll
counter (`clock`) together with a boolean oracle `tick : ℕ → Bool` saying
whether the deadline has passed at the instant of the n-th poll; the real
deadline check `utils::passed_deadline` is monotone in time, which becomes an
explicit hypothesis where needed.  Durations inside `Stats` (pure wall-clock
measurements) are not modelled; all counting fields of `Stats` are.

The recursion of `node_eval_recursive` is translated with an explicit fuel
parameter for structural termination; fuel decreases by one per recursive
call, so any fuel larger than `2*depth + 4` is invisible (the Rust recursion
terminates along every path after at most that many nested calls, because an
extension is only granted while `num_extensions <= 3`).  Universally
quantified theorems hold for every fuel; concrete evaluations use a fuel that
is checked to be sufficient by the computation itself.
-/

namespace ChessAlgo

/-- `chess::Color`. -/
inductive Color where
  | white
  | black
deriving DecidableEq, Repr

/-- `chess::BoardStatus`. -/
inductive BoardStatus where
  | ongoing
  | stalemate
  | checkmate
deriving DecidableEq, Repr

/-- `chess::Action`, over an abstract move type `M`. -/
inductive Action (M : Type) where
  | makeMove (m : M)
  | offerDraw (c : Color)
  | acceptDraw
  | declareDraw
  | resign (c : Color)
deriving DecidableEq, Repr

/-- The debug strings pushed by `utils::vector_push_debug!` are modelled
structurally (their formatted text is irrelevant to every claim): one
constructor per push site in `node_eval_recursive`. -/
inductive DebugEvent (M : Type) where
  | newBest (modules : Nat) (maximise : Bool) (oldEval : Option ℚ)
      (newBestMove : M) (newBestEval : Option ℚ)
  | previousBest (m : M)
  | finalBest (e : Option ℚ) (m : M)
deriving DecidableEq, Repr

/-- `algorithms::utils::Evaluation`. -/
structure Evaluation (M : Type) where
  debugData : Option (List (DebugEvent M))
  eval : Option ℚ
  nextAction : Option (Action M)
  whiteIncrementalPsqtEval : Option ℚ
  blackIncrementalPsqtEval : Option ℚ
deriving DecidableEq, Repr

/-- `algorithms::utils::TranspositionEntry`. -/
structure TranspositionEntry (M : Type) where
  depth : Nat
  eval : ℚ
  nextAction : Option (Action M)
deriving DecidableEq, Repr

/-- The counting fields of `common::utils::Stats`.  The two `Duration`
fields (`time_spent`, `time_for_transposition_access`) are wall-clock
measurements and are not modelled; `num_plies` and `tt_size` are set only by
the harness / after the search and are likewise omitted. -/
structure Stats where
  alphaBetaBreaks : Nat
  depth : Nat
  maxDepth : Nat
  leavesVisited : Nat
  nodesVisited : Nat
  progressOnNextLayer : ℚ
  transpositionTableEntries : Nat
  transpositionTableAccesses : Nat
deriving DecidableEq, Repr

/-- `Stats::default()`. -/
def Stats.init : Stats :=
  { alphaBetaBreaks := 0, depth := 0, maxDepth := 0, leavesVisited := 0,
    nodesVisited := 0, progressOnNextLayer := 0,
    transpositionTableEntries := 0, transpositionTableAccesses := 0 }

/-- `common::constants::modules::ANALYZE`. -/
def ANALYZE : Nat := 1
/-- `common::constants::modules::ALPHA_BETA`. -/
def ALPHA_BETA : Nat := 2
/-- `common::constants::modules::TRANSPOSITION_TABLE`. -/
def TRANSPOSITION_TABLE : Nat := 4
/-- `common::constants::modules::SEARCH_EXTENSIONS`. -/
def SEARCH_EXTENSIONS : Nat := 8
/-- `common::constants::modules::SQUARE_CONTROL_METRIC`. -/
def SQUARE_CONTROL_METRIC : Nat := 16
/-- `common::constants::modules::SKIP_BAD_MOVES`. -/
def SKIP_BAD_MOVES : Nat := 32
/-- Modelled from the spec: the module bitmask also contains NAIVE_PSQT,
PAWN_STRUCTURE, TAPERED_EVERY_PESTO_PSQT and TAPERED_INCREMENTAL_PESTO_PSQT
(the spec lists them in this order after SKIP_BAD_MOVES); their constant
definitions are referenced from `the_algorithm.rs` and `main.rs` but the
corresponding lines of `common/constants.rs` are not in the source snapshot.
Following the pattern of the six present constants they are consecutive
bits. -/
def NAIVE_PSQT : Nat := 64
/-- Modelled from the spec: see `NAIVE_PSQT`. -/
def PAWN_STRUCTURE : Nat := 128
/-- Modelled from the spec: see `NAIVE_PSQT`.  `the_algorithm.rs` refers to
this bit as `TAPERED_EVERY_PRESTO_PSQT`. -/
def TAPERED_EVERY_PESTO_PSQT : Nat := 256
/-- Modelled from the spec: see `NAIVE_PSQT`. -/
def TAPERED_INCREMENTAL_PESTO_PSQT : Nat := 512

/-- `common::utils::module_enabled`: `modules & module_to_test != 0`. -/
def moduleEnabled (modules moduleToTest : Nat) : Bool :=
  modules.land moduleToTest != 0

/-- The exact rational value of the largest finite `f32`,
`(2 - 2⁻²³) · 2¹²⁷`.  `f32::MAX` is used by the search as the saturating
"forced win for White" sentinel. -/
def f32MAX : ℚ := 2 ^ 128 - 2 ^ 104

/-- `f32::MIN = -f32::MAX`, the "forced loss for White" sentinel. -/
def f32MIN : ℚ := -f32MAX

/-- `algorithms::eval::eval_no_legal_moves`, as a function of the data it
reads from the board: the number of checking pieces and the side to move. -/
def evalNoLegalMoves (checkers : Nat) (sideToMove : Color) : ℚ :=
  if checkers = 0 then 0
  else if sideToMove = Color.white then f32MIN else f32MAX

/-- `modules::search_extensions::calculate`.  In `node_eval_recursive` the
same expression is inlined (lines 155–162 of `the_algorithm.rs`), with
`search_extensions = module_enabled(self.modules, SEARCH_EXTENSIONS)`,
`num_legal_moves` the number of legal moves of the **current** node and
`new_board` the child position. -/
def searchExtensionsCalculate (numExtensions : Nat) (numLegalMoves : Nat)
    (newBoardCheckers : Nat) (searchExtensions : Bool) : Nat :=
  if !searchExtensions || numExtensions > 3 then 0
  else if numLegalMoves = 1 || newBoardCheckers ≥ 2 then 1
  else 0

/-- The board-adapter interface of the external chess rules library, together
with the two pieces of the engine whose internals no claim depends on: the
static evaluation `Algorithm::eval` (a pure function of the board and the two
repetition counters it reads) and the incremental tapered-PSQT accumulator
update of `node_eval_recursive` lines 246–314 (a pure function of the parent
board, the move, and the two accumulators; its concrete content is embedded
separately in the `Pesto` namespace below over a concrete board model). -/
structure Rules (B M : Type) where
  legalMoves : B → List M
  makeMove : B → M → B
  sideToMove : B → Color
  /-- `board.checkers().popcnt()`. -/
  checkersCount : B → Nat
  status : B → BoardStatus
  /-- `Algorithm::eval(board, board_played_times_prediction)`; the second and
  third arguments are the `board_played_times` and
  `board_played_times_prediction` counters it reads (it writes neither). -/
  leafEval : B → (B → Nat) → (B → Nat) → ℚ
  /-- the incremental tapered-PSQT accumulator step of lines 246–314,
  `(white, black) ↦ (white', black')` for a given pre-move board and move. -/
  incUpdate : B → M → ℚ × ℚ → ℚ × ℚ

/-- One ghost record per child considered by the search loop: the node's
board, the move, the child board, the node's cumulative `num_extensions`, and
the `extend_by` that was computed for the child. -/
structure ExtLogEntry (B M : Type) where
  parent : B
  move : M
  child : B
  numExtensions : Nat
  extendBy : Nat
deriving DecidableEq, Repr

/-- One ghost record per invocation of the fixed-depth search
(`Algorithm::next_action`) by iterative deepening: the depth, whether a
deadline was passed, the poll-clock interval `[clockBefore, clockAfter)` the
search ran in, and the returned action / progress statistic. -/
structure FixedCall (M : Type) where
  depth : Nat
  hasDeadline : Bool
  clockBefore : Nat
  clockAfter : Nat
  action : Option (Action M)
  stats : Stats
deriving DecidableEq, Repr

/-- The mutable state threaded through the search: the engine's transposition
table and actual-game repetition counter (`Algorithm` fields), the per-search
speculative counter `board_played_times_prediction`, the `Stats` being
accumulated, the deadline poll clock, and ghost observation logs
(`ttInsertLog` for C-style transposition inserts, `extLog` for extension
decisions, `fixedCalls` for iterative-deepening invocations).  The two
`HashMap`-backed counters are modelled as total functions with default 0,
matching every read (`.get(..).unwrap_or(&0)`) in the source; the
transposition table is a partial map. -/
structure RunSt (B M : Type) where
  tt : B → Option (TranspositionEntry M)
  boardPlayedTimes : B → Nat
  prediction : B → Nat
  stats : Stats
  clock : Nat
  ttInsertLog : List (B × Nat)
  extLog : List (ExtLogEntry B M)
  fixedCalls : List (FixedCall M)

/-- Pointwise update of a function-backed counter/map. -/
def upd {B : Type} {β : Type} [DecidableEq B] (f : B → β) (k : B) (v : β) :
    B → β :=
  fun b => if b = k then v else f b

end ChessAlgo

namespace ChessAlgo

/-- Stable insertion into a stably-sorted list: the new element goes after
every existing element `y` with `le y x`. -/
def insertStable {α : Type} (le : α → α → Bool) (x : α) : List α → List α
  | [] => [x]
  | y :: ys => if le y x then y :: insertStable le x ys else x :: y :: ys

/-- Rust's `slice::sort_by` is a stable sort; for a total comparator its
output is the unique stably sorted permutation, realized here as stable
insertion sort (elements are inserted left to right, each after its equals).
-/
def stableSortBy {α : Type} (le : α → α → Bool) (l : List α) : List α :=
  l.foldl (fun acc x => insertStable le x acc) []

/-- `algorithms::eval::new_eval_is_better`, the inlined best-replacement test
of `node_eval_recursive` lines 202–205: the new evaluation has a score, and
the old one has none or is beaten strictly on the side to move. -/
def newEvalIsBetter {M : Type} (maximise : Bool) (old newEv : Evaluation M) :
    Bool :=
  newEv.eval.isSome &&
    (old.eval.isNone ||
      maximise && newEv.eval.getD 0 > old.eval.getD 0 ||
      !maximise && newEv.eval.getD 0 < old.eval.getD 0)

/-- The immutable context of a search: the rules interface, the module
bitmask (`Algorithm::modules`) and the deadline oracle (`tick n` = "the
wall clock has passed the deadline at the n-th poll"). -/
structure Ctx (B M : Type) where
  rules : Rules B M
  modules : Nat
  tick : Nat → Bool

variable {B M : Type}

/-- The sort comparator of `node_eval_recursive` lines 122–132: children are
ordered by their cached transposition evaluation (0 when absent), ascending
for the minimizer and descending (`ordering.reverse()`) for the maximizer. -/
def childKey (c : M × B × Option (TranspositionEntry M)) : ℚ :=
  match c.2.2 with
  | some entry => entry.eval
  | none => 0

/-- Lines 164–197 of `node_eval_recursive`: either reuse a transposition
entry of sufficient depth, or recurse on the child with the speculative
repetition counter incremented before and decremented after the call. -/
def childEvaluate [DecidableEq B] (ctx : Ctx B M)
    (recur : B → Nat → ℚ → ℚ → Bool → Bool → Nat → ℚ → ℚ → RunSt B M →
      Evaluation M × RunSt B M)
    (nb : B) (depth extendBy numExtensions : Nat) (alpha beta : ℚ)
    (hasDeadline : Bool) (wInc bInc : ℚ)
    (te : Option (TranspositionEntry M)) (st : RunSt B M) :
    Evaluation M × RunSt B M :=
  match te with
  | some entry =>
    if entry.depth ≥ depth then
      let ev : Evaluation M :=
        { debugData := none, eval := some entry.eval,
          nextAction := entry.nextAction,
          whiteIncrementalPsqtEval := some wInc,
          blackIncrementalPsqtEval := some bInc }
      (ev, { st with stats := { st.stats with
           transpositionTableAccesses :=
             st.stats.transpositionTableAccesses + 1 } })
    else
      let st1 := { st with
        prediction := upd st.prediction nb (st.prediction nb + 1) }
      let r := recur nb (depth - 1 + extendBy) alpha beta false
        hasDeadline (numExtensions + extendBy) wInc bInc st1
      (r.1, { r.2 with
        prediction := upd r.2.prediction nb (r.2.prediction nb - 1) })
  | none =>
    let st1 := { st with
      prediction := upd st.prediction nb (st.prediction nb + 1) }
    let r := recur nb (depth - 1 + extendBy) alpha beta false
      hasDeadline (numExtensions + extendBy) wInc bInc st1
    (r.1, { r.2 with
      prediction := upd r.2.prediction nb (r.2.prediction nb - 1) })

/-- Lines 202–229 of `node_eval_recursive`: replace the best evaluation when
the child's is strictly better for the side to move, recording analyzer
events when this is the original call with ANALYZE enabled. -/
def bestReplace (ctx : Ctx B M) (maximise original : Bool) (cm : M)
    (best evaluation : Evaluation M) : Evaluation M :=
  if newEvalIsBetter maximise best evaluation then
    let dbg :=
      if original && moduleEnabled ctx.modules ANALYZE then
        some ([DebugEvent.newBest ctx.modules maximise best.eval cm
            evaluation.eval] ++
          match best.nextAction with
          | some (Action.makeMove pm) => [DebugEvent.previousBest pm]
          | _ => [])
      else best.debugData
    { best with
      debugData := dbg
      eval := evaluation.eval
      nextAction := some (Action.makeMove cm) }
  else best

/-- Lines 232–238 of `node_eval_recursive`: raise alpha (maximizer) or lower
beta (minimizer) by the child's score, when it has one. -/
def alphaBetaUpdate (maximise : Bool) (evaluation : Evaluation M)
    (alpha beta : ℚ) : ℚ × ℚ :=
  match evaluation.eval with
  | some e => if maximise then (max alpha e, beta) else (alpha, min beta e)
  | none => (alpha, beta)

/-- Lines 246–314 of `node_eval_recursive`: the incremental tapered-PSQT
accumulator step, gated by its module bit. -/
def incsUpdate (ctx : Ctx B M) (board : B) (cm : M) (wInc bInc : ℚ) :
    ℚ × ℚ :=
  if moduleEnabled ctx.modules TAPERED_INCREMENTAL_PESTO_PSQT then
    ctx.rules.incUpdate board cm (wInc, bInc)
  else (wInc, bInc)

/-- The per-child loop of `node_eval_recursive` (lines 134–317), with the
recursive call supplied as the function argument `recur`.  The boolean in the
result is `true` exactly on the two `return` paths (deadline passed,
SKIP_BAD_MOVES) that leave the whole function and skip the transposition
insert; an alpha-beta `break` yields `false`. -/
def childLoop [DecidableEq B] (ctx : Ctx B M)
    (recur : B → Nat → ℚ → ℚ → Bool → Bool → Nat → ℚ → ℚ → RunSt B M →
      Evaluation M × RunSt B M)
    (board : B) (depth : Nat) (maximise original hasDeadline : Bool)
    (numExtensions numLegalMoves : Nat) :
    List (M × B × Option (TranspositionEntry M)) → Nat → ℚ → ℚ →
    Evaluation M → ℚ × ℚ → RunSt B M → (Evaluation M × Bool) × RunSt B M
  | [], _, _, _, best, _, st => ((best, false), st)
  | (cm, nb, te) :: rest, i, alpha, beta, best, incs, st =>
    -- lines 135–143: `deadline.is_some_and(utils::passed_deadline)`
    let poll := hasDeadline && ctx.tick st.clock
    let st := if hasDeadline then { st with clock := st.clock + 1 } else st
    if poll then
      let p := st.stats.progressOnNextLayer * (1 / (numLegalMoves : ℚ)) +
        ((i - 1 : Nat) : ℚ) / (numLegalMoves : ℚ)
      ((best, true),
        { st with stats := { st.stats with progressOnNextLayer := p } })
    else
      -- lines 145–147
      let st :=
        if depth > st.stats.maxDepth then
          { st with stats := { st.stats with maxDepth := depth } }
        else st
      -- lines 149–153 (`i as f32 > num_legal_moves as f32 * 1.`)
      if moduleEnabled ctx.modules SKIP_BAD_MOVES &&
          (i : ℚ) > (numLegalMoves : ℚ) * 1 then
        ((best, true), st)
      else
        -- lines 155–162, the inlined `search_extensions::calculate`
        let extendBy := searchExtensionsCalculate numExtensions numLegalMoves
          (ctx.rules.checkersCount nb)
          (moduleEnabled ctx.modules SEARCH_EXTENSIONS)
        let st := { st with
          extLog := ⟨board, cm, nb, numExtensions, extendBy⟩ :: st.extLog }
        -- lines 164–197
        let r := childEvaluate ctx recur nb depth extendBy numExtensions
          alpha beta hasDeadline incs.1 incs.2 te st
        let evaluation := r.1
        let st :=
          { r.2 with stats :=
              { r.2.stats with nodesVisited := r.2.stats.nodesVisited + 1 } }
        -- lines 202–229
        let best := bestReplace ctx maximise original cm best evaluation
        -- lines 231–244
        if moduleEnabled ctx.modules ALPHA_BETA then
          let ab := alphaBetaUpdate maximise evaluation alpha beta
          if ab.1 > ab.2 then
            ((best, false),
              { st with stats := { st.stats with
                  alphaBetaBreaks := st.stats.alphaBetaBreaks + 1 } })
          else
            -- lines 246–316
            let incs2 := incsUpdate ctx board cm incs.1 incs.2
            let best := { best with
              whiteIncrementalPsqtEval := some incs2.1,
              blackIncrementalPsqtEval := some incs2.2 }
            childLoop ctx recur board depth maximise original hasDeadline
              numExtensions numLegalMoves rest (i + 1) ab.1 ab.2 best incs2 st
        else
          let incs2 := incsUpdate ctx board cm incs.1 incs.2
          let best := { best with
            whiteIncrementalPsqtEval := some incs2.1,
            blackIncrementalPsqtEval := some incs2.2 }
          childLoop ctx recur board depth maximise original hasDeadline
            numExtensions numLegalMoves rest (i + 1) alpha beta best incs2 st

/-- `Algorithm::node_eval_recursive`, with an explicit fuel for structural
termination (fuel 0 returns an empty evaluation without touching the state;
this case is unreachable whenever `fuel > 2*depth + 4`). -/
def nodeEvalRec [DecidableEq B] (ctx : Ctx B M) :
    Nat → B → Nat → ℚ → ℚ → Bool → Bool → Nat → ℚ → ℚ → RunSt B M →
    Evaluation M × RunSt B M
  | 0, _, _, _, _, _, _, _, _, _, st =>
    ({ debugData := none, eval := none, nextAction := none,
       whiteIncrementalPsqtEval := none, blackIncrementalPsqtEval := none },
     st)
  | fuel + 1, board, depth, alpha, beta, original, hasDeadline, numExtensions,
      wInc, bInc, st =>
    -- lines 62–78
    if depth = 0 then
      let st :=
        { st with stats :=
            { st.stats with leavesVisited := st.stats.leavesVisited + 1 } }
      let e := ctx.rules.leafEval board st.boardPlayedTimes st.prediction
      let incrementalPsqtEval :=
        if ctx.rules.sideToMove board = Color.black then bInc else wInc
      ({ debugData := none, eval := some (e + incrementalPsqtEval),
         nextAction := none, whiteIncrementalPsqtEval := some wInc,
         blackIncrementalPsqtEval := some bInc }, st)
    else
      -- line 81
      let maximise := ctx.rules.sideToMove board = Color.white
      let best0 : Evaluation M :=
        { debugData := none, eval := none, nextAction := none,
          whiteIncrementalPsqtEval := none, blackIncrementalPsqtEval := none }
      let legalMoves := ctx.rules.legalMoves board
      let numLegalMoves := legalMoves.length
      if numLegalMoves = 0 then
        -- lines 86–101: the stalemate score is assigned and then
        -- unconditionally overwritten by the checkmate sentinel
        let bEval1 :=
          if ctx.rules.checkersCount board = 0 then
            { best0 with eval := some (0 : ℚ) }
          else best0
        let sentinel : ℚ :=
          if ctx.rules.sideToMove board = Color.white then f32MIN else f32MAX
        let bEval2 := { bEval1 with eval := some sentinel }
        (bEval2, st)
      else
        -- lines 106–120
        let boards := legalMoves.map (fun cm =>
          let nb := ctx.rules.makeMove board cm
          let te :=
            if moduleEnabled ctx.modules TRANSPOSITION_TABLE then st.tt nb
            else none
          (cm, nb, te))
        -- lines 122–132
        let sorted := stableSortBy (fun c1 c2 =>
          if maximise then decide (childKey c2 ≤ childKey c1)
          else decide (childKey c1 ≤ childKey c2)) boards
        let r := childLoop ctx (nodeEvalRec ctx fuel) board depth
          maximise original hasDeadline numExtensions numLegalMoves sorted 0
          alpha beta best0 (wInc, bInc) st
        let st := r.2
        if r.1.2 then (r.1.1, st)
        else
          let best := r.1.1
          -- lines 319–329
          let st :=
            if moduleEnabled ctx.modules TRANSPOSITION_TABLE && depth ≥ 3 then
              let st :=
                match best.eval with
                | some bestEval =>
                  { st with
                    tt := upd st.tt board
                      (some ⟨depth, bestEval, best.nextAction⟩),
                    ttInsertLog := (board, depth) :: st.ttInsertLog }
                | none => st
              { st with stats := { st.stats with
                  transpositionTableEntries :=
                    st.stats.transpositionTableEntries + 1 } }
            else st
          -- lines 331–337 (`take()` leaves `None` unless re-assigned)
          let best :=
            match best.debugData, best.nextAction with
            | some dd, some (Action.makeMove nextMove) =>
              let dd2 := dd ++ [DebugEvent.finalBest best.eval nextMove]
              { best with debugData := some dd2 }
            | some _, _ => { best with debugData := none }
            | none, _ => best
          (best, st)

end ChessAlgo

namespace ChessAlgo

variable {B M : Type}

/-- The fuel handed to `nodeEvalRec` for a depth-`d` search; strictly larger
than the `2*d + 4` bound on the nesting depth of the Rust recursion. -/
def searchFuel (depth : Nat) : Nat := 2 * depth + 6

/-- `Algorithm::next_action` (lines 341–363): runs `node_eval_recursive` at
the root with a fresh `Stats`, a fresh speculative repetition counter,
`alpha = f32::MIN`, `beta = f32::MAX`, `original = true` and zero incremental
accumulators, and returns `(next_action, analyzer_data, stats)`.  A ghost
`FixedCall` record of the invocation is appended to the state. -/
def nextActionFixed [DecidableEq B] (ctx : Ctx B M) (board : B) (depth : Nat)
    (hasDeadline : Bool) (st : RunSt B M) :
    (Option (Action M) × List (DebugEvent M) × Stats) × RunSt B M :=
  let st1 := { st with stats := Stats.init, prediction := fun _ => 0 }
  let clockBefore := st1.clock
  let r := nodeEvalRec ctx (searchFuel depth) board depth f32MIN
    f32MAX true hasDeadline 0 0 0 st1
  let out := r.1
  let st2 := r.2
  let res := (out.nextAction, out.debugData.getD [], st2.stats)
  let st3 := { st2 with fixedCalls :=
    ⟨depth, hasDeadline, clockBefore, st2.clock, out.nextAction, st2.stats⟩ ::
      st2.fixedCalls }
  (res, st3)

/-- The `for depth in (deepest_complete_depth + 1)..=10` loop of
`next_action_iterative_deepening` (lines 380–391): run the fixed-depth search
with the deadline, poll `utils::passed_deadline` afterwards, and on a passed
deadline keep the previous depth's output with only `progress_on_next_layer`
taken from the cancelled layer.  The loop is structural on the countdown `k`
of remaining iterations; the entry call uses `k = 9`, `d = 2`, covering
depths 2..=10. -/
def idLoop [DecidableEq B] (ctx : Ctx B M) (board : B) :
    Nat → Nat → (Option (Action M) × List (DebugEvent M) × Stats) → Nat →
    RunSt B M →
    (Option (Action M) × List (DebugEvent M) × Stats) × Nat × RunSt B M
  | 0, _, deepestOut, deepestDepth, st => (deepestOut, deepestDepth, st)
  | k + 1, d, deepestOut, deepestDepth, st =>
    let r := nextActionFixed ctx board d true st
    let latest := r.1
    let st1 := r.2
    let poll := ctx.tick st1.clock
    let st2 := { st1 with clock := st1.clock + 1 }
    if poll then
      let kept := (deepestOut.1, deepestOut.2.1,
        { deepestOut.2.2 with
          progressOnNextLayer := latest.2.2.progressOnNextLayer })
      (kept, deepestDepth, st2)
    else idLoop ctx board k (d + 1) latest d st2

/-- The result of `Algorithm::next_action_iterative_deepening`:
`result = none` models the `panic!` on a missing action for an ongoing
position; `chosen` is a ghost copy of `deepest_complete_output.0`, the raw
action chosen by iterative deepening before the terminal-status fallback and
the threefold-repetition post-processing. -/
structure IDOutcome (M : Type) where
  result : Option (Action M)
  debug : List (DebugEvent M)
  stats : Stats
  chosen : Option (Action M)

/-- Lines 395–419 of `next_action_iterative_deepening`: fall back to a
terminal action when iterative deepening produced none (panicking, modelled
as `result = none`, when the position is ongoing), and convert a chosen move
into DeclareDraw when the resulting position was already played at least 3
times; the resulting position's counter is incremented either way. -/
def idPostProcess [DecidableEq B] (ctx : Ctx B M) (board : B)
    (chosen : Option (Action M)) (debug : List (DebugEvent M))
    (finalStats : Stats) (st2 : RunSt B M) : IDOutcome M × RunSt B M :=
  let actionOpt : Option (Action M) :=
    match chosen with
    | some a => some a
    | none =>
      match ctx.rules.status board with
      | BoardStatus.ongoing => none
      | BoardStatus.stalemate => some Action.declareDraw
      | BoardStatus.checkmate =>
        some (Action.resign (ctx.rules.sideToMove board))
  match actionOpt with
  | none =>
    ({ result := none, debug := debug, stats := finalStats,
       chosen := chosen }, st2)
  | some a =>
    -- lines 408–419
    match a with
    | Action.makeMove cm =>
      let newBoard := ctx.rules.makeMove board cm
      let oldValue := st2.boardPlayedTimes newBoard
      let a2 := if oldValue ≥ 3 then Action.declareDraw else a
      let counted2 := upd st2.boardPlayedTimes newBoard (oldValue + 1)
      let st3 := { st2 with boardPlayedTimes := counted2 }
      ({ result := some a2, debug := debug, stats := finalStats,
         chosen := chosen }, st3)
    | _ =>
      ({ result := some a, debug := debug, stats := finalStats,
         chosen := chosen }, st2)

/-- `Algorithm::next_action_iterative_deepening` (lines 365–422).  The
`tt_size` stat is not modelled (see `Stats`). -/
def nextActionID [DecidableEq B] (ctx : Ctx B M) (board : B) (st : RunSt B M) :
    IDOutcome M × RunSt B M :=
  -- lines 370–373: count the queried position
  let counted := upd st.boardPlayedTimes board (st.boardPlayedTimes board + 1)
  let st0 := { st with boardPlayedTimes := counted }
  -- lines 375–378: depth 1 without a deadline
  let r1 := nextActionFixed ctx board 1 false st0
  -- lines 380–391
  let rLoop := idLoop ctx board 9 2 r1.1 1 r1.2
  let outF := rLoop.1
  let deepestDepth := rLoop.2.1
  let st2 := rLoop.2.2
  -- line 392
  let finalStats := { outF.2.2 with depth := deepestDepth }
  -- lines 395–419
  idPostProcess ctx board outF.1 outF.2.1 finalStats st2

end ChessAlgo

namespace ChessAlgo

/-- `pitter::logic::GameOutcome`. -/
inductive GameOutcome where
  | whiteWin
  | blackWin
  | draw
  | inconclusiveTooLong
deriving DecidableEq, Repr

/-- `pitter::logic::GamePairOutcome`. -/
inductive GamePairOutcome where
  | algo1Win
  | algo1HalfWin
  | algo2Win
  | algo2HalfWin
  | draw
  | inconclusiveSameColorWin
  | inconclusiveTooLong
deriving DecidableEq, Repr

/-- `GamePairOutcome::combine_outcomes`: the first argument is the outcome of
the game in which Algo1 played White, the second the outcome of the game with
the seats swapped.  The two `InconclusiveTooLong` match arms come last, in
source order. -/
def combineOutcomes : GameOutcome → GameOutcome → GamePairOutcome
  | GameOutcome.whiteWin, GameOutcome.whiteWin =>
    GamePairOutcome.inconclusiveSameColorWin
  | GameOutcome.whiteWin, GameOutcome.blackWin => GamePairOutcome.algo1Win
  | GameOutcome.whiteWin, GameOutcome.draw => GamePairOutcome.algo1HalfWin
  | GameOutcome.blackWin, GameOutcome.whiteWin => GamePairOutcome.algo2Win
  | GameOutcome.blackWin, GameOutcome.blackWin =>
    GamePairOutcome.inconclusiveSameColorWin
  | GameOutcome.blackWin, GameOutcome.draw => GamePairOutcome.algo2HalfWin
  | GameOutcome.draw, GameOutcome.whiteWin => GamePairOutcome.algo2HalfWin
  | GameOutcome.draw, GameOutcome.blackWin => GamePairOutcome.algo1HalfWin
  | GameOutcome.draw, GameOutcome.draw => GamePairOutcome.draw
  | GameOutcome.inconclusiveTooLong, _ => GamePairOutcome.inconclusiveTooLong
  | _, GameOutcome.inconclusiveTooLong => GamePairOutcome.inconclusiveTooLong

/-- Exchanging the roles of the two engines in a pair outcome. -/
def swapAlgos : GamePairOutcome → GamePairOutcome
  | GamePairOutcome.algo1Win => GamePairOutcome.algo2Win
  | GamePairOutcome.algo2Win => GamePairOutcome.algo1Win
  | GamePairOutcome.algo1HalfWin => GamePairOutcome.algo2HalfWin
  | GamePairOutcome.algo2HalfWin => GamePairOutcome.algo1HalfWin
  | GamePairOutcome.draw => GamePairOutcome.draw
  | GamePairOutcome.inconclusiveSameColorWin =>
    GamePairOutcome.inconclusiveSameColorWin
  | GamePairOutcome.inconclusiveTooLong => GamePairOutcome.inconclusiveTooLong

/-- C9: the pair-outcome combination table is symmetric under swapping the
two engines — `combine_outcomes(y, x)` is `combine_outcomes(x, y)` with the
roles of Algo1 and Algo2 exchanged — and when both engines win their game as
White the combination is `InconclusiveSameColorWin` in either labelling. -/
theorem c9_combine_outcomes_engine_swap :
    (∀ x y : GameOutcome,
      combineOutcomes y x = swapAlgos (combineOutcomes x y)) ∧
    combineOutcomes GameOutcome.whiteWin GameOutcome.whiteWin =
      GamePairOutcome.inconclusiveSameColorWin := by
  constructor
  · intro x y
    cases x <;> cases y <;> rfl
  · rfl

end ChessAlgo

namespace ChessAlgo

namespace Pesto

/-!
The tapered-PESTO piece-square-table computations, over a concrete board
model.  Squares are `0..63` (`a1 = 0`, file = `sq % 8`, rank = `sq / 8`);
pieces are the indices used throughout `the_algorithm.rs`: Pawn 0, Knight 1,
Bishop 2, Rook 3, Queen 4, King 5.  A board is the side to move plus the
occupancy of each square.  The table constants `TAPERED_MG_PESTO` /
`TAPERED_EG_PESTO` are referenced by `the_algorithm.rs` but their defining
lines of `common/constants.rs` are not in the source snapshot, so every
definition is parametric in the two tables `mg eg : Nat → Nat → ℚ`
(piece index → flipped square index → value).
-/

/-- A chess position: side to move and the piece (colour, piece-index) on
each square. -/
structure MiniBoard where
  sideToMove : Color
  squares : Nat → Option (Color × Nat)

/-- `common::utils::piece_value` (by piece index). -/
def pieceValue : Nat → Nat
  | 0 => 1
  | 1 => 3
  | 2 => 3
  | 3 => 5
  | 4 => 9
  | _ => 1000

/-- Modelled from the spec/usage: `common::utils::match_piece_to_int` maps
`Some(piece)` to the indices Pawn 0 … King 5 used by `Algorithm::eval`
(lines 516–528) and `None` to 6 (`node_eval_recursive` line 271 tests `== 6`
for an empty capture square); its defining lines of `common/utils.rs` are not
in the source snapshot.  Pieces are already indices in this model. -/
def matchPieceToInt (p : Option Nat) : Nat :=
  match p with
  | some k => k
  | none => 6

/-- Bit `i` of `(board.pieces(piece) & board.color_combined(color))`. -/
def pieceColorBit (bd : MiniBoard) (c : Color) (p : Nat) (i : Nat) : ℚ :=
  match bd.squares i with
  | some (c2, p2) => if c2 = c ∧ p2 = p then 1 else 0
  | none => 0

/-- Bit `i` of the same bitboard after `.reverse_colors()`:
`reverse_colors` is `u64::swap_bytes`, the vertical flip, so bit `i` of the
flipped board is bit `i XOR 56` of the original. -/
def reversedBit (bd : MiniBoard) (c : Color) (p : Nat) (i : Nat) : ℚ :=
  pieceColorBit bd c p (i ^^^ 56)

/-- `56 - sq + 2*(sq % 8)`, the square-index flip used for the incremental
source/destination squares (`the_algorithm.rs` lines 283–305).  The Rust
expression evaluates in `u8` with wrapping, which agrees with the
non-wrapping reordering `56 + 2*(sq % 8) - sq` for every `sq < 64`. -/
def flipSquare (sq : Nat) : Nat := 56 + 2 * (sq % 8) - sq

/-- `common::utils::material_each_side`: total White and Black material. -/
def materialEachSide (bd : MiniBoard) : Nat × Nat :=
  (List.range 6).foldl
    (fun acc p =>
      let whiteCount := ((List.range 64).filter
        (fun i => bd.squares i = some (Color.white, p))).length
      let totalCount := ((List.range 64).filter
        (fun i => (bd.squares i).map Prod.snd = some p)).length
      (acc.1 + whiteCount * pieceValue p,
       acc.2 + (totalCount - whiteCount) * pieceValue p))
    (0, 0)

/-- `calc_increment` (`the_algorithm.rs` lines 248–250): the tapered table
value of one piece on one (flipped) square, with blend weights taken from the
current total material. -/
def calcIncrement (mg eg : Nat → Nat → ℚ) (pieceType loc : Nat)
    (material : Nat × Nat) : ℚ :=
  (((material.1 + material.2 : ℚ) - 2000) * mg pieceType loc +
    ((2000 + 78 : ℚ) - material.1 - material.2) * eg pieceType loc) / 78

/-- `calc_increment_all` (`the_algorithm.rs` lines 252–267): the bootstrap
recomputation over piece types `0..5` (king excluded) and square indices
`0..63` (index 63 excluded), each term weighted by the flipped bitboard
bit. -/
def calcIncrementAll (mg eg : Nat → Nat → ℚ) (bd : MiniBoard) (c : Color)
    (material : Nat × Nat) : ℚ :=
  (List.range 5).foldl
    (fun acc j =>
      (List.range 63).foldl
        (fun acc2 i =>
          acc2 + reversedBit bd c j i * calcIncrement mg eg j i material)
        acc)
    0

/-- The incremental tapered-PSQT accumulator update of `node_eval_recursive`
lines 246–314, for a move from `src` to `dst` on the pre-move board `bd`:
if the mover's accumulator is 0 it is bootstrapped by `calc_increment_all`
on `bd`; otherwise the moved piece's source value is subtracted, its
destination value added, and on a capture the captured piece's value is
subtracted from the opponent's accumulator. -/
def incrementalPestoUpdate (mg eg : Nat → Nat → ℚ) (bd : MiniBoard)
    (src dst : Nat) (acc : ℚ × ℚ) : ℚ × ℚ :=
  let material := materialEachSide bd
  let movedPieceType := matchPieceToInt ((bd.squares src).map Prod.snd)
  let isAttacked := !(matchPieceToInt ((bd.squares dst).map Prod.snd) = 6)
  let attackedPieceType := matchPieceToInt ((bd.squares dst).map Prod.snd)
  if bd.sideToMove = Color.white then
    if acc.1 = 0 then
      (acc.1 + calcIncrementAll mg eg bd Color.white material, acc.2)
    else
      let w1 := acc.1 -
        calcIncrement mg eg movedPieceType (flipSquare src) material
      let w2 := w1 +
        calcIncrement mg eg movedPieceType (flipSquare dst) material
      let b2 :=
        if isAttacked then
          acc.2 -
            calcIncrement mg eg attackedPieceType (flipSquare dst) material
        else acc.2
      (w2, b2)
  else
    if acc.2 = 0 then
      (acc.1, acc.2 + calcIncrementAll mg eg bd Color.black material)
    else
      let b1 := acc.2 -
        calcIncrement mg eg movedPieceType (flipSquare src) material
      let b2 := b1 +
        calcIncrement mg eg movedPieceType (flipSquare dst) material
      let w2 :=
        if isAttacked then
          acc.1 -
            calcIncrement mg eg attackedPieceType (flipSquare dst) material
        else acc.1
      (w2, b2)

/-- `tapered_psqt_calc` (`Algorithm::eval` lines 501–513): the raw (not yet
divided by 78) tapered dot product for one piece type of one colour, over
square indices `0..63` (index 63 excluded). -/
def taperedPsqtCalc (mg eg : Nat → Nat → ℚ) (bd : MiniBoard) (c : Color)
    (material : Nat × Nat) (pieceIndex : Nat) : ℚ :=
  (List.range 63).foldl
    (fun acc i =>
      acc + reversedBit bd c pieceIndex i *
        (((material.1 + material.2 : ℚ) - 2000) * mg pieceIndex i +
          ((2000 + 78 : ℚ) - material.1 - material.2) * eg pieceIndex i))
    0

/-- The full tapered-PESTO term of `Algorithm::eval`: the six
`tapered_psqt_calc` calls for the side to move (lines 515–529) divided by 78
as in the final score (line 568, `tapered_pesto/78.`). -/
def taperedPestoTerm (mg eg : Nat → Nat → ℚ) (bd : MiniBoard) : ℚ :=
  let material := materialEachSide bd
  let c := bd.sideToMove
  (taperedPsqtCalc mg eg bd c material 0 +
    taperedPsqtCalc mg eg bd c material 3 +
    taperedPsqtCalc mg eg bd c material 5 +
    taperedPsqtCalc mg eg bd c material 4 +
    taperedPsqtCalc mg eg bd c material 2 +
    taperedPsqtCalc mg eg bd c material 1) / 78

/-- `Board::make_move_new` restricted to what the PSQT code observes: the
piece on `src` moves to `dst` (capturing whatever was there) and the turn
passes. -/
def applyMove (bd : MiniBoard) (src dst : Nat) : MiniBoard :=
  { sideToMove :=
      if bd.sideToMove = Color.white then Color.black else Color.white,
    squares := fun i =>
      if i = dst then bd.squares src
      else if i = src then none
      else bd.squares i }

/-- Folding the incremental accumulator update over a play-out, as the spec
describes the incremental variant accumulating "as moves are applied": each
move's delta is computed on the pre-move board. -/
def playoutAccum (mg eg : Nat → Nat → ℚ) :
    MiniBoard → ℚ × ℚ → List (Nat × Nat) → (ℚ × ℚ) × MiniBoard
  | bd, acc, [] => (acc, bd)
  | bd, acc, (src, dst) :: rest =>
    playoutAccum mg eg (applyMove bd src dst)
      (incrementalPestoUpdate mg eg bd src dst acc) rest

/-- The score the incremental accumulator yields at the end of a play-out:
the accumulator of the side to move, as consumed at depth-0 leaves
(`node_eval_recursive` lines 72–77). -/
def incrementalScore (mg eg : Nat → Nat → ℚ) (bd : MiniBoard)
    (moves : List (Nat × Nat)) : ℚ :=
  let (acc, finalBoard) := playoutAccum mg eg bd (0, 0) moves
  if finalBoard.sideToMove = Color.black then acc.2 else acc.1

/-- The standard chess starting position. -/
def startingBoard : MiniBoard :=
  { sideToMove := Color.white,
    squares := fun i =>
      if i = 0 ∨ i = 7 then some (Color.white, 3)
      else if i = 1 ∨ i = 6 then some (Color.white, 1)
      else if i = 2 ∨ i = 5 then some (Color.white, 2)
      else if i = 3 then some (Color.white, 4)
      else if i = 4 then some (Color.white, 5)
      else if 8 ≤ i ∧ i ≤ 15 then some (Color.white, 0)
      else if 48 ≤ i ∧ i ≤ 55 then some (Color.black, 0)
      else if i = 56 ∨ i = 63 then some (Color.black, 3)
      else if i = 57 ∨ i = 62 then some (Color.black, 1)
      else if i = 58 ∨ i = 61 then some (Color.black, 2)
      else if i = 59 then some (Color.black, 4)
      else if i = 60 then some (Color.black, 5)
      else none }

end Pesto

end ChessAlgo

namespace ChessAlgo

/-- C4 (code bug): for the legal play-out consisting of the single opening
move e2–e4 (square 12 to square 28) from the initial position, the
incremental tapered-PESTO accumulator yields score 0 for the side to move at
the final position — for **every** pair of tables, since Black has not moved
and White's bootstrap recomputes the pre-move board — while the full tapered
term recomputed from scratch on the final position is the tapered sum over
Black's sixteen initial pieces, e.g. 16 with all-ones tables: a structural
divergence far beyond floating-point rounding tolerance. -/
theorem c4_incremental_differs_from_full :
    (∀ mg eg : Nat → Nat → ℚ,
      Pesto.incrementalScore mg eg Pesto.startingBoard [(12, 28)] = 0) ∧
    Pesto.taperedPestoTerm (fun _ _ => 1) (fun _ _ => 1)
      (Pesto.applyMove Pesto.startingBoard 12 28) = 16 ∧
    (16 : ℚ) ≠ 0 := by
  refine ⟨fun mg eg => rfl, ?_, by norm_num⟩
  set_option maxRecDepth 100000 in with_unfolding_all decide

end ChessAlgo

namespace ChessAlgo

/-- A fresh engine/search state: empty transposition table, zero counters,
empty ghost logs, poll clock 0. -/
def emptySt : RunSt Nat Nat :=
  { tt := fun _ => none, boardPlayedTimes := fun _ => 0,
    prediction := fun _ => 0, stats := Stats.init, clock := 0,
    ttInsertLog := [], extLog := [], fixedCalls := [] }

/-- A stalemate position for C1: board 0 has no legal moves, no checking
pieces, and White to move.  All other interface fields are irrelevant on this
path. -/
def c1Rules : Rules Nat Nat :=
  { legalMoves := fun _ => [], makeMove := fun b _ => b,
    sideToMove := fun _ => Color.white, checkersCount := fun _ => 0,
    status := fun _ => BoardStatus.stalemate, leafEval := fun _ _ _ => 0,
    incUpdate := fun _ _ p => p }

/-- Context for C1: no modules, deadline never passed. -/
def c1Ctx : Ctx Nat Nat :=
  { rules := c1Rules, modules := 0, tick := fun _ => false }

/-- C1 (code bug): at a stalemate position (no legal moves, no checking
pieces, White to move) reached at remaining depth 1, `node_eval_recursive`
returns the checkmate sentinel `f32::MIN` instead of the 0 required by the
claim: lines 86–101 assign the stalemate score and then unconditionally
overwrite it with the side-to-move losing sentinel.  The helper
`eval_no_legal_moves` of `algorithms/eval.rs`, which the claim also cites,
returns 0 on the same data — the code contradicts its sibling function and
its own inline comment. -/
theorem c1_stalemate_overwritten_by_sentinel :
    (nodeEvalRec c1Ctx 3 0 1 f32MIN f32MAX true false 0 0 0 emptySt).1.eval =
        some f32MIN ∧
    f32MIN ≠ 0 ∧
    evalNoLegalMoves 0 Color.white = 0 := by
  refine ⟨rfl, ?_, rfl⟩
  have : (0 : ℚ) < f32MAX := by norm_num [f32MAX]
  simp only [f32MIN]
  intro h
  rw [neg_eq_zero] at h
  exact absurd h (by positivity)

end ChessAlgo

namespace ChessAlgo

variable {B M : Type}

/-- Membership in a stable insertion. -/
theorem mem_insertStable {α : Type} (le : α → α → Bool) (y : α) (l : List α)
    (x : α) (hx : x ∈ insertStable le y l) : x = y ∨ x ∈ l := by
  induction l with
  | nil => simpa [insertStable] using hx
  | cons z zs ih =>
    simp only [insertStable] at hx
    split at hx
    · rcases List.mem_cons.mp hx with h | h
      · exact Or.inr (List.mem_cons.mpr (Or.inl h))
      · rcases ih h with h1 | h1
        · exact Or.inl h1
        · exact Or.inr (List.mem_cons.mpr (Or.inr h1))
    · rcases List.mem_cons.mp hx with h | h
      · exact Or.inl h
      · exact Or.inr h

/-- Membership after the folded insertions of `stableSortBy`. -/
theorem mem_foldl_insertStable {α : Type} (le : α → α → Bool) :
    ∀ (l acc : List α) (x : α),
      x ∈ l.foldl (fun a y => insertStable le y a) acc → x ∈ acc ∨ x ∈ l := by
  intro l
  induction l with
  | nil => intro acc x h; exact Or.inl h
  | cons z zs ih =>
    intro acc x h
    rcases ih (insertStable le z acc) x h with h1 | h1
    · rcases mem_insertStable le z acc x h1 with h2 | h2
      · exact Or.inr (List.mem_cons.mpr (Or.inl h2))
      · exact Or.inl h2
    · exact Or.inr (List.mem_cons.mpr (Or.inr h1))

/-- Membership after a stable sort implies membership before. -/
theorem mem_stableSortBy {α : Type} (le : α → α → Bool) (l : List α) (x : α)
    (hx : x ∈ stableSortBy le l) : x ∈ l := by
  rcases mem_foldl_insertStable le l [] x hx with h | h
  · simp at h
  · exact h

/-- The frame facts every search step preserves: the speculative repetition
counter is restored pointwise, the actual-game counter and the
iterative-deepening ghost log are untouched, every new transposition-insert
record has the module enabled and node depth ≥ 3, and every new extension
record is internally consistent (child = parent + move, and `extend_by` is
`search_extensions::calculate` of the node's data). -/
def StepOK (ctx : Ctx B M) (st stB : RunSt B M) : Prop :=
  (∀ x, stB.prediction x = st.prediction x) ∧
  stB.boardPlayedTimes = st.boardPlayedTimes ∧
  stB.fixedCalls = st.fixedCalls ∧
  (∃ l, stB.ttInsertLog = l ++ st.ttInsertLog ∧
    ∀ e ∈ l, moduleEnabled ctx.modules TRANSPOSITION_TABLE = true ∧
      3 ≤ e.2) ∧
  (∃ l, stB.extLog = l ++ st.extLog ∧
    ∀ e ∈ l, e.child = ctx.rules.makeMove e.parent e.move ∧
      e.extendBy = searchExtensionsCalculate e.numExtensions
        (ctx.rules.legalMoves e.parent).length
        (ctx.rules.checkersCount e.child)
        (moduleEnabled ctx.modules SEARCH_EXTENSIONS))

theorem StepOK.refl {ctx : Ctx B M} {st : RunSt B M} : StepOK ctx st st :=
  ⟨fun _ => Eq.refl _, Eq.refl _, Eq.refl _, ⟨[], by simp⟩, ⟨[], by simp⟩⟩

theorem StepOK.trans {ctx : Ctx B M} {s1 s2 s3 : RunSt B M}
    (h12 : StepOK ctx s1 s2) (h23 : StepOK ctx s2 s3) : StepOK ctx s1 s3 := by
  obtain ⟨p12, b12, f12, ⟨l12, e12, he12⟩, ⟨m12, g12, hg12⟩⟩ := h12
  obtain ⟨p23, b23, f23, ⟨l23, e23, he23⟩, ⟨m23, g23, hg23⟩⟩ := h23
  refine ⟨fun x => (p23 x).trans (p12 x), b23.trans b12, f23.trans f12,
    ⟨l23 ++ l12, ?_, ?_⟩, ⟨m23 ++ m12, ?_, ?_⟩⟩
  · rw [e23, e12, List.append_assoc]
  · intro e he
    rcases List.mem_append.mp he with h | h
    · exact he23 e h
    · exact he12 e h
  · rw [g23, g12, List.append_assoc]
  · intro e he
    rcases List.mem_append.mp he with h | h
    · exact hg23 e h
    · exact hg12 e h

end ChessAlgo

namespace ChessAlgo

variable {B M : Type}

/-- A state whose counter-and-log fields are untouched (prediction pointwise)
is a valid step. -/
theorem stepOK_keep {ctx : Ctx B M} {st : RunSt B M} {tt2 : B → Option (TranspositionEntry M)}
    {pred2 : B → Nat} {stats2 : Stats} {clock2 : Nat}
    (hpred : ∀ x, pred2 x = st.prediction x) :
    StepOK ctx st
      { tt := tt2, boardPlayedTimes := st.boardPlayedTimes,
        prediction := pred2, stats := stats2, clock := clock2,
        ttInsertLog := st.ttInsertLog, extLog := st.extLog,
        fixedCalls := st.fixedCalls } :=
  ⟨hpred, Eq.refl _, Eq.refl _, ⟨[], by simp⟩, ⟨[], by simp⟩⟩

theorem childEvaluate_stepOK [DecidableEq B] (ctx : Ctx B M)
    (recur : B → Nat → ℚ → ℚ → Bool → Bool → Nat → ℚ → ℚ → RunSt B M →
      Evaluation M × RunSt B M)
    (hrec : ∀ b d a bb o hd ne w bk s,
      StepOK ctx s (recur b d a bb o hd ne w bk s).2)
    (nb : B) (depth extendBy numExtensions : Nat) (alpha beta : ℚ)
    (hasDeadline : Bool) (wInc bInc : ℚ)
    (te : Option (TranspositionEntry M)) (st : RunSt B M) :
    StepOK ctx st (childEvaluate ctx recur nb depth extendBy numExtensions
      alpha beta hasDeadline wInc bInc te st).2 := by
  have main : ∀ st0 : RunSt B M,
      StepOK ctx st0
        (let st1 := { st0 with
          prediction := upd st0.prediction nb (st0.prediction nb + 1) }
        let r := recur nb (depth - 1 + extendBy) alpha beta false
          hasDeadline (numExtensions + extendBy) wInc bInc st1
        ((r.1, { r.2 with
          prediction := upd r.2.prediction nb (r.2.prediction nb - 1) }) :
            Evaluation M × RunSt B M)).2 := by
    intro st0
    obtain ⟨hp, hb, hf, ⟨l, hl, hle⟩, ⟨m, hm, hme⟩⟩ :=
      hrec nb (depth - 1 + extendBy) alpha beta false hasDeadline
        (numExtensions + extendBy) wInc bInc
        { st0 with prediction := upd st0.prediction nb (st0.prediction nb + 1) }
    refine ⟨?_, hb, hf, ⟨l, hl, hle⟩, ⟨m, hm, hme⟩⟩
    intro x
    by_cases hx : x = nb
    · subst hx
      simp only [upd, if_pos (Eq.refl _)]
      rw [hp x]
      simp [upd]
    · simp only [upd, if_neg hx]
      rw [hp x]
      simp [upd, hx]
  cases te with
  | none => exact main st
  | some entry =>
    simp only [childEvaluate]
    split
    · exact stepOK_keep (fun _ => Eq.refl _)
    · exact main st

end ChessAlgo

namespace ChessAlgo

variable {B M : Type}

theorem childLoop_stepOK [DecidableEq B] (ctx : Ctx B M)
    (recur : B → Nat → ℚ → ℚ → Bool → Bool → Nat → ℚ → ℚ → RunSt B M →
      Evaluation M × RunSt B M)
    (hrec : ∀ b d a bb o hd ne w bk s,
      StepOK ctx s (recur b d a bb o hd ne w bk s).2)
    (board : B) (depth : Nat) (maximise original hasDeadline : Bool)
    (numExtensions : Nat)
    (l : List (M × B × Option (TranspositionEntry M)))
    (hnb : ∀ c ∈ l, c.2.1 = ctx.rules.makeMove board c.1)
    (i : Nat) (alpha beta : ℚ) (best : Evaluation M) (incs : ℚ × ℚ)
    (st : RunSt B M) :
    StepOK ctx st (childLoop ctx recur board depth maximise original
      hasDeadline numExtensions (ctx.rules.legalMoves board).length l i alpha
      beta best incs st).2 := by
  induction l generalizing i alpha beta best incs st with
  | nil => exact StepOK.refl
  | cons c rest ih =>
    obtain ⟨cm, nb, te⟩ := c
    have hnbHead : nb = ctx.rules.makeMove board cm :=
      hnb (cm, nb, te) (List.mem_cons_self _ _)
    have hnbTail : ∀ c ∈ rest, c.2.1 = ctx.rules.makeMove board c.1 :=
      fun c hc => hnb c (List.mem_cons.mpr (Or.inr hc))
    rw [childLoop]
    have hclock : StepOK ctx st
        (if hasDeadline then { st with clock := st.clock + 1 } else st) := by
      split
      · exact stepOK_keep (fun _ => Eq.refl _)
      · exact StepOK.refl
    set stA := if hasDeadline then { st with clock := st.clock + 1 } else st
      with hstA
    split
    · -- deadline return
      refine StepOK.trans hclock ?_
      exact stepOK_keep (fun _ => Eq.refl _)
    · have hmax : StepOK ctx st
          (if depth > stA.stats.maxDepth then
            { stA with stats := { stA.stats with maxDepth := depth } }
          else stA) := by
        refine StepOK.trans hclock ?_
        split
        · exact stepOK_keep (fun _ => Eq.refl _)
        · exact StepOK.refl
      set stB := if depth > stA.stats.maxDepth then
          { stA with stats := { stA.stats with maxDepth := depth } }
        else stA with hstB
      split
      · -- SKIP_BAD_MOVES return
        exact hmax
      · -- extension-log cons
        have hext : StepOK ctx stB
            { stB with extLog :=
                ⟨board, cm, nb, numExtensions,
                  searchExtensionsCalculate numExtensions
                    (ctx.rules.legalMoves board).length
                    (ctx.rules.checkersCount nb)
                    (moduleEnabled ctx.modules SEARCH_EXTENSIONS)⟩ ::
                  stB.extLog } := by
          refine ⟨fun _ => Eq.refl _, Eq.refl _, Eq.refl _, ⟨[], by simp⟩,
            ⟨[⟨board, cm, nb, numExtensions,
              searchExtensionsCalculate numExtensions
                (ctx.rules.legalMoves board).length
                (ctx.rules.checkersCount nb)
                (moduleEnabled ctx.modules SEARCH_EXTENSIONS)⟩], by simp, ?_⟩⟩
          intro e he
          rcases List.mem_singleton.mp he with rfl
          exact ⟨hnbHead, Eq.refl _⟩
        set stC := { stB with extLog :=
            ⟨board, cm, nb, numExtensions,
              searchExtensionsCalculate numExtensions
                (ctx.rules.legalMoves board).length
                (ctx.rules.checkersCount nb)
                (moduleEnabled ctx.modules SEARCH_EXTENSIONS)⟩ ::
              stB.extLog } with hstC
        have hCE := childEvaluate_stepOK ctx recur hrec nb depth
          (searchExtensionsCalculate numExtensions
            (ctx.rules.legalMoves board).length
            (ctx.rules.checkersCount nb)
            (moduleEnabled ctx.modules SEARCH_EXTENSIONS))
          numExtensions alpha beta hasDeadline incs.1 incs.2 te stC
        set r := childEvaluate ctx recur nb depth
          (searchExtensionsCalculate numExtensions
            (ctx.rules.legalMoves board).length
            (ctx.rules.checkersCount nb)
            (moduleEnabled ctx.modules SEARCH_EXTENSIONS))
          numExtensions alpha beta hasDeadline incs.1 incs.2 te stC with hr
        have hToNode : StepOK ctx st
            { r.2 with stats := { r.2.stats with
                nodesVisited := r.2.stats.nodesVisited + 1 } } := by
          refine StepOK.trans hmax (StepOK.trans hext (StepOK.trans hCE ?_))
          exact stepOK_keep (fun _ => Eq.refl _)
        set stD := { r.2 with stats := { r.2.stats with
            nodesVisited := r.2.stats.nodesVisited + 1 } } with hstD
        split
        · -- ALPHA_BETA enabled
          dsimp only
          split
          · -- break
            refine StepOK.trans hToNode ?_
            exact stepOK_keep (fun _ => Eq.refl _)
          · exact StepOK.trans hToNode (ih hnbTail _ _ _ _ _ _)
        · exact StepOK.trans hToNode (ih hnbTail _ _ _ _ _ _)

end ChessAlgo

namespace ChessAlgo

variable {B M : Type}

theorem nodeEvalRec_stepOK [DecidableEq B] (ctx : Ctx B M) (fuel : Nat) :
    ∀ (board : B) (depth : Nat) (alpha beta : ℚ)
      (original hasDeadline : Bool) (numExtensions : Nat) (wInc bInc : ℚ)
      (st : RunSt B M),
      StepOK ctx st (nodeEvalRec ctx fuel board depth alpha beta original
        hasDeadline numExtensions wInc bInc st).2 := by
  induction fuel with
  | zero => intro board depth alpha beta original hasDeadline ne w bk st
            exact StepOK.refl
  | succ fuel ih =>
    intro board depth alpha beta original hasDeadline ne w bk st
    simp only [nodeEvalRec]
    split
    · -- depth 0 leaf
      exact stepOK_keep (fun _ => Eq.refl _)
    · split
      · -- no legal moves
        exact StepOK.refl
      · -- interior node
        have hnb : ∀ c ∈ stableSortBy
            (fun c1 c2 =>
              if ctx.rules.sideToMove board = Color.white then
                decide (childKey c2 ≤ childKey c1)
              else decide (childKey c1 ≤ childKey c2))
            ((ctx.rules.legalMoves board).map (fun cm =>
              (cm, ctx.rules.makeMove board cm,
                if moduleEnabled ctx.modules TRANSPOSITION_TABLE then
                  st.tt (ctx.rules.makeMove board cm)
                else none))),
            c.2.1 = ctx.rules.makeMove board c.1 := by
          intro c hc
          have hmem := mem_stableSortBy _ _ _ hc
          obtain ⟨cm, _hcm, rfl⟩ := List.mem_map.mp hmem
          rfl
        have hcl := childLoop_stepOK ctx (nodeEvalRec ctx fuel)
          (fun b d a bb o hd ne2 w2 bk2 s => ih b d a bb o hd ne2 w2 bk2 s)
          board depth (ctx.rules.sideToMove board = Color.white) original
          hasDeadline ne _ hnb 0 alpha beta
          { debugData := none, eval := none, nextAction := none,
            whiteIncrementalPsqtEval := none,
            blackIncrementalPsqtEval := none } (w, bk) st
        set r := childLoop ctx (nodeEvalRec ctx fuel) board depth
          (ctx.rules.sideToMove board = Color.white) original hasDeadline ne
          (ctx.rules.legalMoves board).length
          (stableSortBy
            (fun c1 c2 =>
              if ctx.rules.sideToMove board = Color.white then
                decide (childKey c2 ≤ childKey c1)
              else decide (childKey c1 ≤ childKey c2))
            ((ctx.rules.legalMoves board).map (fun cm =>
              (cm, ctx.rules.makeMove board cm,
                if moduleEnabled ctx.modules TRANSPOSITION_TABLE then
                  st.tt (ctx.rules.makeMove board cm)
                else none)))) 0 alpha beta
          { debugData := none, eval := none, nextAction := none,
            whiteIncrementalPsqtEval := none,
            blackIncrementalPsqtEval := none } (w, bk) st with hrEq
        split
        · -- early return (deadline / SKIP_BAD_MOVES)
          exact hcl
        · -- transposition insert, then debug finalization
          dsimp only
          split
          · -- TRANSPOSITION_TABLE enabled and depth ≥ 3
            rename_i hins
            have h3 : moduleEnabled ctx.modules TRANSPOSITION_TABLE = true ∧
                3 ≤ depth := by
              have hsplit := (Bool.and_eq_true _ _).mp hins
              exact ⟨hsplit.1, by simpa [decide_eq_true_eq] using hsplit.2⟩
            refine StepOK.trans hcl ?_
            split
            · -- an evaluation was found: a real insert
              refine ⟨fun _ => Eq.refl _, Eq.refl _, Eq.refl _,
                ⟨[(board, depth)], by simp, ?_⟩, ⟨[], by simp⟩⟩
              intro e he
              rcases List.mem_singleton.mp he with rfl
              exact h3
            · exact stepOK_keep (fun _ => Eq.refl _)
          · -- no insert
            exact hcl

end ChessAlgo

namespace ChessAlgo

variable {B M : Type}

/-- C2: the speculative repetition counter
(`board_played_times_prediction`) is restored to its pre-call value, key by
key, by every invocation of `node_eval_recursive` — on every exit path
(normal return, transposition hit, alpha-beta break, and early return on a
passed deadline, the last being every valuation of the deadline oracle). -/
theorem c2_prediction_restored [DecidableEq B] (ctx : Ctx B M) (fuel : Nat)
    (board : B) (depth : Nat) (alpha beta : ℚ) (original hasDeadline : Bool)
    (numExtensions : Nat) (wInc bInc : ℚ) (st : RunSt B M) :
    ∀ x, (nodeEvalRec ctx fuel board depth alpha beta original hasDeadline
      numExtensions wInc bInc st).2.prediction x = st.prediction x :=
  fun x => (nodeEvalRec_stepOK ctx fuel board depth alpha beta original
    hasDeadline numExtensions wInc bInc st).1 x

/-- C8: every transposition-table insertion performed during a fixed-depth
search (recorded in the ghost `ttInsertLog` with the inserting node's
remaining depth) happens with TRANSPOSITION_TABLE enabled and remaining
depth ≥ 3; in particular there is no insertion at leaves or at depths 1–2. -/
theorem c8_insert_only_at_depth_ge_three [DecidableEq B] (ctx : Ctx B M)
    (fuel : Nat) (board : B) (depth : Nat) (alpha beta : ℚ)
    (original hasDeadline : Bool) (numExtensions : Nat) (wInc bInc : ℚ)
    (st : RunSt B M) (e : B × Nat)
    (he : e ∈ (nodeEvalRec ctx fuel board depth alpha beta original
      hasDeadline numExtensions wInc bInc st).2.ttInsertLog) :
    e ∈ st.ttInsertLog ∨
      (moduleEnabled ctx.modules TRANSPOSITION_TABLE = true ∧ 3 ≤ e.2) := by
  obtain ⟨_, _, _, ⟨l, hl, hle⟩, _⟩ := nodeEvalRec_stepOK ctx fuel board
    depth alpha beta original hasDeadline numExtensions wInc bInc st
  rw [hl] at he
  rcases List.mem_append.mp he with h | h
  · exact Or.inr (hle e h)
  · exact Or.inl h

/-- The chain rules for the C8 witness: a single forced line 0 → 1 → 2 → 3,
searched at depth 3 with the transposition table enabled, stores the root. -/
def c8Rules : Rules Nat Nat :=
  { legalMoves := fun b => if b ≤ 2 then [0] else [],
    makeMove := fun b _ => b + 1,
    sideToMove := fun _ => Color.white, checkersCount := fun _ => 0,
    status := fun _ => BoardStatus.ongoing, leafEval := fun _ _ _ => 0,
    incUpdate := fun _ _ p => p }

def c8Ctx : Ctx Nat Nat :=
  { rules := c8Rules, modules := TRANSPOSITION_TABLE, tick := fun _ => false }

/-- Witness for C8: in the concrete depth-3 run the root is inserted at
depth 3, and the theorem classifies that log entry. -/
theorem c8_insert_only_at_depth_ge_three_witness :
    ((0, 3) ∈ (nodeEvalRec c8Ctx 12 0 3 f32MIN f32MAX true false 0 0 0
      emptySt).2.ttInsertLog) ∧
    ((0, 3) ∈ emptySt.ttInsertLog ∨
      (moduleEnabled c8Ctx.modules TRANSPOSITION_TABLE = true ∧ 3 ≤ 3)) := by
  have hmem : (0, 3) ∈ (nodeEvalRec c8Ctx 12 0 3 f32MIN f32MAX true false 0
      0 0 emptySt).2.ttInsertLog := by
    with_unfolding_all decide
  exact ⟨hmem, c8_insert_only_at_depth_ge_three c8Ctx 12 0 3 f32MIN f32MAX
    true false 0 0 0 emptySt (0, 3) hmem⟩

end ChessAlgo

namespace ChessAlgo

variable {B M : Type}

/-- `search_extensions::calculate` grants exactly 1 iff extensions are
enabled, at most 3 cumulative extensions were granted, and the **current**
node has a single legal move or the child is in double check. -/
theorem searchExtensionsCalculate_eq_one_iff (numExtensions numLegalMoves
    newBoardCheckers : Nat) (searchExtensions : Bool) :
    searchExtensionsCalculate numExtensions numLegalMoves newBoardCheckers
        searchExtensions = 1 ↔
      (searchExtensions = true ∧ numExtensions ≤ 3 ∧
        (numLegalMoves = 1 ∨ 2 ≤ newBoardCheckers)) := by
  unfold searchExtensionsCalculate
  cases searchExtensions <;> split_ifs <;> simp_all

/-- `search_extensions::calculate` grants 0 or 1. -/
theorem searchExtensionsCalculate_le_one (numExtensions numLegalMoves
    newBoardCheckers : Nat) (searchExtensions : Bool) :
    searchExtensionsCalculate numExtensions numLegalMoves newBoardCheckers
        searchExtensions = 0 ∨
      searchExtensionsCalculate numExtensions numLegalMoves newBoardCheckers
        searchExtensions = 1 := by
  unfold searchExtensionsCalculate
  split_ifs <;> simp

/-- The extension rule as the claim states it, following the spec's words:
extend by 1 iff SEARCH_EXTENSIONS is enabled, the cumulative extensions so
far are ≤ 3, and either **the child position has only one legal reply** or
the move puts the opponent in double check. -/
def c6ClaimedExtension (searchExtensions : Bool) (numExtensions : Nat)
    (childReplies childCheckers : Nat) : Nat :=
  if searchExtensions = true ∧ numExtensions ≤ 3 ∧
      (childReplies = 1 ∨ 2 ≤ childCheckers) then 1 else 0

/-- Rules for the C6 counterexample: board 0 has the single move 7 to
board 7 (a forced move), board 7 has five legal replies, and no position has
checking pieces. -/
def c6Rules : Rules Nat Nat :=
  { legalMoves := fun b =>
      if b = 0 then [7] else if b = 7 then [1, 2, 3, 4, 5] else [],
    makeMove := fun b m => 10 * b + m,
    sideToMove := fun _ => Color.white, checkersCount := fun _ => 0,
    status := fun _ => BoardStatus.ongoing, leafEval := fun _ _ _ => 0,
    incUpdate := fun _ _ p => p }

def c6Ctx : Ctx Nat Nat :=
  { rules := c6Rules, modules := SEARCH_EXTENSIONS, tick := fun _ => false }

/-- C6 counterexample: searching board 0 at depth 1, the child board 7 is
recorded with extension 1 — the code extends because the **current** node
has a single legal move — although the child has five legal replies and no
checkers, so the claim's rule (extend iff the child has one reply or is in
double check) demands extension 0. -/
theorem c6_counterexample_parent_vs_child :
    ((⟨0, 7, 7, 0, 1⟩ : ExtLogEntry Nat Nat) ∈
      (nodeEvalRec c6Ctx 10 0 1 f32MIN f32MAX true false 0 0 0
        emptySt).2.extLog) ∧
    (c6Rules.legalMoves 7).length = 5 ∧
    c6Rules.checkersCount 7 = 0 ∧
    c6ClaimedExtension true 0 5 0 = 0 := by
  refine ⟨by with_unfolding_all decide, rfl, rfl, by decide⟩

/-- C6 as amended: for every child considered by the search (ghost
`extLog`), the recorded extension is 0 or 1, and it is 1 iff
SEARCH_EXTENSIONS is enabled, the node's cumulative extensions are ≤ 3, and
either the **current position** has only one legal move or the child is in
double check. -/
theorem c6_extension_rule [DecidableEq B] (ctx : Ctx B M) (fuel : Nat)
    (board : B) (depth : Nat) (alpha beta : ℚ) (original hasDeadline : Bool)
    (numExtensions : Nat) (wInc bInc : ℚ) (st : RunSt B M)
    (e : ExtLogEntry B M)
    (he : e ∈ (nodeEvalRec ctx fuel board depth alpha beta original
      hasDeadline numExtensions wInc bInc st).2.extLog) :
    e ∈ st.extLog ∨
      ((e.extendBy = 0 ∨ e.extendBy = 1) ∧
        (e.extendBy = 1 ↔
          (moduleEnabled ctx.modules SEARCH_EXTENSIONS = true ∧
            e.numExtensions ≤ 3 ∧
            ((ctx.rules.legalMoves e.parent).length = 1 ∨
              2 ≤ ctx.rules.checkersCount e.child)))) := by
  obtain ⟨_, _, _, _, ⟨l, hl, hle⟩⟩ := nodeEvalRec_stepOK ctx fuel board
    depth alpha beta original hasDeadline numExtensions wInc bInc st
  rw [hl] at he
  rcases List.mem_append.mp he with h | h
  · obtain ⟨_hchild, hcalc⟩ := hle e h
    refine Or.inr ⟨?_, ?_⟩
    · rw [hcalc]
      exact searchExtensionsCalculate_le_one _ _ _ _
    · rw [hcalc]
      exact searchExtensionsCalculate_eq_one_iff _ _ _ _
  · exact Or.inl h

/-- Witness for the amended C6 rule, at the counterexample run's logged
child: the recorded extension 1 satisfies the amended iff (the current
position has a single legal move). -/
theorem c6_extension_rule_witness :
    ((⟨0, 7, 7, 0, 1⟩ : ExtLogEntry Nat Nat) ∈
      (nodeEvalRec c6Ctx 10 0 1 f32MIN f32MAX true false 0 0 0
        emptySt).2.extLog) ∧
    ((⟨0, 7, 7, 0, 1⟩ : ExtLogEntry Nat Nat) ∈ emptySt.extLog ∨
      (((1 : Nat) = 0 ∨ (1 : Nat) = 1) ∧
        ((1 : Nat) = 1 ↔
          (moduleEnabled c6Ctx.modules SEARCH_EXTENSIONS = true ∧
            (0 : Nat) ≤ 3 ∧
            ((c6Ctx.rules.legalMoves 0).length = 1 ∨
              2 ≤ c6Ctx.rules.checkersCount 7))))) := by
  have hmem : (⟨0, 7, 7, 0, 1⟩ : ExtLogEntry Nat Nat) ∈
      (nodeEvalRec c6Ctx 10 0 1 f32MIN f32MAX true false 0 0 0
        emptySt).2.extLog := by
    with_unfolding_all decide
  exact ⟨hmem, c6_extension_rule c6Ctx 10 0 1 f32MIN f32MAX true false 0 0 0
    emptySt ⟨0, 7, 7, 0, 1⟩ hmem⟩

end ChessAlgo

namespace ChessAlgo

variable {B M : Type}

/-- The fixed-depth search never writes the actual-game repetition counter. -/
theorem nextActionFixed_boardPlayedTimes [DecidableEq B] (ctx : Ctx B M)
    (board : B) (depth : Nat) (hasDeadline : Bool) (st : RunSt B M) :
    (nextActionFixed ctx board depth hasDeadline st).2.boardPlayedTimes =
      st.boardPlayedTimes := by
  unfold nextActionFixed
  exact (nodeEvalRec_stepOK ctx (searchFuel depth) board depth f32MIN f32MAX
    true hasDeadline 0 0 0 _).2.1

/-- The iterative-deepening loop never writes the actual-game repetition
counter. -/
theorem idLoop_boardPlayedTimes [DecidableEq B] (ctx : Ctx B M) (board : B) :
    ∀ (k d : Nat) (out : Option (Action M) × List (DebugEvent M) × Stats)
      (dd : Nat) (st : RunSt B M),
      (idLoop ctx board k d out dd st).2.2.boardPlayedTimes =
        st.boardPlayedTimes := by
  intro k
  induction k with
  | zero => intro d out dd st; rfl
  | succ k ih =>
    intro d out dd st
    rw [idLoop]
    dsimp only
    split
    · exact nextActionFixed_boardPlayedTimes ctx board d true st
    · rw [ih]
      exact nextActionFixed_boardPlayedTimes ctx board d true st

/-- The post-processing step passes the chosen action through to the ghost
field unchanged. -/
theorem idPostProcess_chosen [DecidableEq B] (ctx : Ctx B M) (board : B)
    (chosen : Option (Action M)) (debug : List (DebugEvent M))
    (finalStats : Stats) (st2 : RunSt B M) :
    (idPostProcess ctx board chosen debug finalStats st2).1.chosen =
      chosen := by
  unfold idPostProcess
  rcases chosen with _ | a
  · cases h : ctx.rules.status board <;> simp [h]
  · cases a <;> rfl

/-- The post-processing step increments exactly the resulting position's
counter, and only when the chosen action is a move. -/
theorem idPostProcess_boardPlayedTimes [DecidableEq B] (ctx : Ctx B M)
    (board : B) (chosen : Option (Action M)) (debug : List (DebugEvent M))
    (finalStats : Stats) (st2 : RunSt B M) :
    ∀ x, (idPostProcess ctx board chosen debug finalStats
        st2).2.boardPlayedTimes x =
      st2.boardPlayedTimes x +
      (match chosen with
        | some (Action.makeMove m) =>
          if x = ctx.rules.makeMove board m then 1 else 0
        | _ => 0) := by
  intro x
  unfold idPostProcess
  rcases chosen with _ | a
  · cases h : ctx.rules.status board <;> simp [h]
  · cases a with
    | makeMove cm =>
      dsimp only
      by_cases hx : x = ctx.rules.makeMove board cm <;> simp [upd, hx]
    | offerDraw c => simp
    | acceptDraw => simp
    | declareDraw => simp
    | resign c => simp

/-- C10: `next_action_iterative_deepening` increments the actual-game
repetition counter of the queried board by exactly one at entry, and — when
the action chosen by iterative deepening is a move — increments the counter
of the resulting position by exactly one (also when the move is then
converted to DeclareDraw); no other key changes. -/
theorem c10_board_played_times_frame [DecidableEq B] (ctx : Ctx B M)
    (board : B) (st : RunSt B M) :
    ∀ x, (nextActionID ctx board st).2.boardPlayedTimes x =
      st.boardPlayedTimes x + (if x = board then 1 else 0) +
      (match (nextActionID ctx board st).1.chosen with
        | some (Action.makeMove m) =>
          if x = ctx.rules.makeMove board m then 1 else 0
        | _ => 0) := by
  intro x
  unfold nextActionID
  dsimp only
  rw [idPostProcess_boardPlayedTimes, idPostProcess_chosen,
    idLoop_boardPlayedTimes, nextActionFixed_boardPlayedTimes]
  dsimp only
  have hupd : upd st.boardPlayedTimes board (st.boardPlayedTimes board + 1)
      x = st.boardPlayedTimes x + (if x = board then 1 else 0) := by
    by_cases hx : x = board <;> simp [upd, hx]
  rw [hupd]

end ChessAlgo

namespace ChessAlgo

variable {B M : Type}

/-- When the chosen action is a move whose resulting position already has
counter ≥ 3, post-processing substitutes DeclareDraw. -/
theorem idPostProcess_declare_draw [DecidableEq B] (ctx : Ctx B M) (board : B)
    (chosen : Option (Action M)) (debug : List (DebugEvent M))
    (finalStats : Stats) (st2 : RunSt B M) (m : M)
    (hch : chosen = some (Action.makeMove m))
    (hcount : 3 ≤ st2.boardPlayedTimes (ctx.rules.makeMove board m)) :
    (idPostProcess ctx board chosen debug finalStats st2).1.result =
      some Action.declareDraw := by
  subst hch
  unfold idPostProcess
  simp [hcount]

/-- C3: if iterative deepening chooses `MakeMove m` and the resulting
position's actual-game repetition count before the call is already ≥ 3, the
returned action is DeclareDraw instead of the move. -/
theorem c3_threefold_repetition_declared [DecidableEq B] (ctx : Ctx B M)
    (board : B) (st : RunSt B M) (m : M)
    (hchosen : (nextActionID ctx board st).1.chosen =
      some (Action.makeMove m))
    (hcount : 3 ≤ st.boardPlayedTimes (ctx.rules.makeMove board m)) :
    (nextActionID ctx board st).1.result = some Action.declareDraw := by
  unfold nextActionID at hchosen ⊢
  dsimp only at hchosen ⊢
  rw [idPostProcess_chosen] at hchosen
  refine idPostProcess_declare_draw _ _ _ _ _ _ m hchosen ?_
  rw [idLoop_boardPlayedTimes, nextActionFixed_boardPlayedTimes]
  dsimp only
  by_cases hx : ctx.rules.makeMove board m = board
  · rw [hx]
    rw [hx] at hcount
    simp only [upd, if_true, eq_self_iff_true]
    omega
  · simpa [upd, hx] using hcount

/-- Rules for the C3 witness: board 0 has the single move 0 leading to
board 1. -/
def c3Rules : Rules Nat Nat :=
  { legalMoves := fun b => if b = 0 then [0] else [],
    makeMove := fun b _ => b + 1,
    sideToMove := fun _ => Color.white, checkersCount := fun _ => 0,
    status := fun _ => BoardStatus.ongoing, leafEval := fun _ _ _ => 0,
    incUpdate := fun _ _ p => p }

def c3Ctx : Ctx Nat Nat :=
  { rules := c3Rules, modules := 0, tick := fun _ => true }

/-- Starting state for the C3 witness: the resulting position (board 1) was
already counted 3 times. -/
def c3St : RunSt Nat Nat :=
  { emptySt with boardPlayedTimes := fun x => if x = 1 then 3 else 0 }

/-- Witness for C3: in the concrete run the engine's chosen move leads to a
position with count 3 and the returned action is DeclareDraw. -/
theorem c3_threefold_repetition_declared_witness :
    (nextActionID c3Ctx 0 c3St).1.chosen = some (Action.makeMove 0) ∧
    3 ≤ c3St.boardPlayedTimes (c3Rules.makeMove 0 0) ∧
    (nextActionID c3Ctx 0 c3St).1.result = some Action.declareDraw := by
  have hch : (nextActionID c3Ctx 0 c3St).1.chosen =
      some (Action.makeMove 0) := by
    with_unfolding_all decide
  have hc : 3 ≤ c3St.boardPlayedTimes (c3Rules.makeMove 0 0) := by decide
  exact ⟨hch, hc, c3_threefold_repetition_declared c3Ctx 0 c3St 0 hch hc⟩

end ChessAlgo

namespace ChessAlgo

variable {B M : Type}

/-- The fixed-depth search appends exactly one ghost `FixedCall` record,
whose fields are the invocation's depth, deadline flag, poll-clock window and
output. -/
theorem nextActionFixed_fixedCalls [DecidableEq B] (ctx : Ctx B M)
    (board : B) (depth : Nat) (hasDeadline : Bool) (st : RunSt B M) :
    (nextActionFixed ctx board depth hasDeadline st).2.fixedCalls =
      (⟨depth, hasDeadline, st.clock,
        (nextActionFixed ctx board depth hasDeadline st).2.clock,
        (nextActionFixed ctx board depth hasDeadline st).1.1,
        (nextActionFixed ctx board depth hasDeadline st).1.2.2⟩ :
          FixedCall M) :: st.fixedCalls := by
  conv_lhs => unfold nextActionFixed
  dsimp only
  rw [(nodeEvalRec_stepOK ctx (searchFuel depth) board depth f32MIN f32MAX
    true hasDeadline 0 0 0 _).2.2.1]
  rfl

/-- The previous layer's recorded action: the head of the older calls, or
the incoming output when there is none. -/
def prevAction (rest : List (FixedCall M))
    (out : Option (Action M) × List (DebugEvent M) × Stats) :
    Option (Action M) :=
  match rest with
  | [] => out.1
  | c :: _ => c.action

/-- The previous layer's recorded stats. -/
def prevStats (rest : List (FixedCall M))
    (out : Option (Action M) × List (DebugEvent M) × Stats) : Stats :=
  match rest with
  | [] => out.2.2
  | c :: _ => c.stats

/-- The previous layer's depth. -/
def prevDepth (rest : List (FixedCall M)) (dd : Nat) : Nat :=
  match rest with
  | [] => dd
  | c :: _ => c.depth

/-- The behaviour of the iterative-deepening loop, by induction on the
countdown: the ghost `FixedCall` records are consecutive deadline-carrying
depths `d, d+1, …` (newest first); every non-final layer's post-search poll
was negative; and the returned output is the newest call's when the loop ran
to exhaustion with a negative final poll, else the previous layer's output
with only `progress_on_next_layer` taken from the cancelled newest call. -/
theorem idLoop_spec [DecidableEq B] (ctx : Ctx B M) (board : B) :
    ∀ (k d : Nat) (out : Option (Action M) × List (DebugEvent M) × Stats)
      (dd : Nat) (st : RunSt B M),
    ∃ calls : List (FixedCall M),
      (idLoop ctx board k d out dd st).2.2.fixedCalls =
        calls ++ st.fixedCalls ∧
      calls.map (fun c => (c.depth, c.hasDeadline)) =
        ((List.range' d calls.length).map (fun e => (e, true))).reverse ∧
      calls.length ≤ k ∧
      (0 < k → calls ≠ []) ∧
      (∀ c ∈ calls, c.depth + 1 < d + calls.length →
        ctx.tick c.clockAfter = false) ∧
      (match calls with
       | [] =>
         (idLoop ctx board k d out dd st).1 = out ∧
         (idLoop ctx board k d out dd st).2.1 = dd
       | cL :: rest =>
         cL.depth = d + rest.length ∧
         ((ctx.tick cL.clockAfter = true ∧
           (idLoop ctx board k d out dd st).1.1 = prevAction rest out ∧
           (idLoop ctx board k d out dd st).1.2.2 =
             { prevStats rest out with
               progressOnNextLayer := cL.stats.progressOnNextLayer } ∧
           (idLoop ctx board k d out dd st).2.1 = prevDepth rest dd) ∨
          (ctx.tick cL.clockAfter = false ∧ calls.length = k ∧
           (idLoop ctx board k d out dd st).1.1 = cL.action ∧
           (idLoop ctx board k d out dd st).1.2.2 = cL.stats ∧
           (idLoop ctx board k d out dd st).2.1 = cL.depth))) := by
  intro k
  induction k with
  | zero =>
    intro d out dd st
    exact ⟨[], by simp [idLoop], by simp, by simp, by simp, by simp,
      ⟨rfl, rfl⟩⟩
  | succ k ih =>
    intro d out dd st
    rw [idLoop]
    dsimp only
    set r := nextActionFixed ctx board d true st with hr
    set c2 : FixedCall M :=
      ⟨d, true, st.clock, r.2.clock, r.1.1, r.1.2.2⟩ with hc2
    set st2 : RunSt B M := { r.2 with clock := r.2.clock + 1 } with hst2
    have hfc : st2.fixedCalls = c2 :: st.fixedCalls := by
      rw [hst2]
      show r.2.fixedCalls = c2 :: st.fixedCalls
      rw [hr]
      exact nextActionFixed_fixedCalls ctx board d true st
    by_cases hpoll : ctx.tick r.2.clock = true
    · -- deadline passed after the depth-d search: keep the previous output
      rw [if_pos hpoll]
      refine ⟨[c2], by simpa using hfc, by simp [hc2], by simp, by simp,
        ?_, ?_⟩
      · intro c hc hlt
        rcases List.mem_singleton.mp hc with rfl
        simp [hc2] at hlt
      · exact ⟨by simp [hc2], Or.inl ⟨by simpa [hc2] using hpoll,
          rfl, rfl, rfl⟩⟩
    · -- the loop continues at depth d+1
      rw [if_neg hpoll]
      obtain ⟨calls1, hA, hB, hC, hNE, hD, hE⟩ := ih (d + 1) r.1 d st2
      refine ⟨calls1 ++ [c2], ?_, ?_, ?_, ?_, ?_, ?_⟩
      · rw [hA, hfc]
        simp
      · rw [List.map_append, hB]
        have hlen : (calls1 ++ [c2]).length = calls1.length + 1 := by simp
        rw [hlen]
        simp [hc2, List.range'_succ]
      · simpa using Nat.succ_le_succ hC
      · intro _
        simp
      · intro c hc hlt
        simp only [List.length_append, List.length_singleton] at hlt
        rcases List.mem_append.mp hc with h | h
        · exact hD c h (by omega)
        · rcases List.mem_singleton.mp h with rfl
          by_cases h1 : calls1 = []
          · subst h1
            simp [hc2] at hlt
          · simp only [hc2]
            exact Bool.not_eq_true _ ▸ hpoll
      · cases calls1 with
        | nil =>
          have hk0 : k = 0 := by
            by_contra hk
            exact hNE (Nat.pos_of_ne_zero hk) (Eq.refl [])
          obtain ⟨hres, hdd⟩ := hE
          refine ⟨by simp [hc2], Or.inr ?_⟩
          refine ⟨by simpa [hc2] using hpoll, by simp [hk0], ?_, ?_, ?_⟩
          · rw [hres]
          · rw [hres]
          · rw [hdd]
        | cons cL1 rest1 =>
          obtain ⟨hdepth1, hcase⟩ := hE
          have hPA : prevAction (rest1 ++ [c2]) out = prevAction rest1 r.1 := by
            cases rest1 <;> simp [prevAction, hc2]
          have hPS : prevStats (rest1 ++ [c2]) out = prevStats rest1 r.1 := by
            cases rest1 <;> simp [prevStats, hc2]
          have hPD : prevDepth (rest1 ++ [c2]) dd = prevDepth rest1 d := by
            cases rest1 <;> simp [prevDepth, hc2]
          refine ⟨?_, ?_⟩
          · simp only [List.append_eq, List.length_append,
              List.length_singleton]
            omega
          · simp only [List.append_eq]
            rcases hcase with ⟨ht, ha, hs, hd2⟩ | ⟨ht, hlen1, ha, hs, hd2⟩
            · exact Or.inl ⟨ht, by rw [ha, hPA], by rw [hs, hPS],
                by rw [hd2, hPD]⟩
            · refine Or.inr ⟨ht, ?_, by rw [ha], by rw [hs], by rw [hd2]⟩
              simp only [List.length_cons, List.length_append,
                List.length_singleton, List.length_nil] at hlen1 ⊢
              omega

end ChessAlgo

namespace ChessAlgo

variable {B M : Type}

/-- Post-processing passes the final stats through unchanged. -/
theorem idPostProcess_stats [DecidableEq B] (ctx : Ctx B M) (board : B)
    (chosen : Option (Action M)) (debug : List (DebugEvent M))
    (finalStats : Stats) (st2 : RunSt B M) :
    (idPostProcess ctx board chosen debug finalStats st2).1.stats =
      finalStats := by
  unfold idPostProcess
  rcases chosen with _ | a
  · cases h : ctx.rules.status board <;> simp [h]
  · cases a <;> rfl

/-- Post-processing does not touch the ghost invocation log. -/
theorem idPostProcess_fixedCalls [DecidableEq B] (ctx : Ctx B M) (board : B)
    (chosen : Option (Action M)) (debug : List (DebugEvent M))
    (finalStats : Stats) (st2 : RunSt B M) :
    (idPostProcess ctx board chosen debug finalStats st2).2.fixedCalls =
      st2.fixedCalls := by
  unfold idPostProcess
  rcases chosen with _ | a
  · cases h : ctx.rules.status board <;> simp [h]
  · cases a <;> rfl

/-- Reading the newest entry off the descending-depth projection: its depth
is the largest of the recorded range and the tail keeps the same shape. -/
theorem projHead (cH : FixedCall M) (rest2 : List (FixedCall M)) (n : Nat)
    (h : (cH :: rest2).map (fun c => (c.depth, c.hasDeadline)) =
      ((List.range' 2 n).map (fun e => (e, true))).reverse) :
    cH.depth = n + 1 ∧
      rest2.map (fun c => (c.depth, c.hasDeadline)) =
        ((List.range' 2 (n - 1)).map (fun e => (e, true))).reverse := by
  cases n with
  | zero => simp at h
  | succ n =>
    rw [List.range'_concat, List.map_append, List.reverse_append] at h
    simp only [List.map_cons, List.map_nil, List.reverse_cons,
      List.reverse_nil, List.nil_append, List.cons_append,
      List.singleton_append, List.cons.injEq] at h
    obtain ⟨h1, h2⟩ := h
    refine ⟨?_, ?_⟩
    · have h3 := congrArg Prod.fst h1
      simp only at h3
      omega
    · simpa using h2

end ChessAlgo

namespace ChessAlgo

variable {B M : Type}

/-- The record of the layer preceding the newest one: the head of the older
deadline-carrying calls, or the depth-1 call when there is none. -/
def prevFixedCall (rest : List (FixedCall M)) (c1 : FixedCall M) :
    FixedCall M :=
  match rest with
  | [] => c1
  | c :: _ => c

/-- C7: for every call of `next_action_iterative_deepening`, under a
monotone deadline oracle (once the wall clock passes the deadline it stays
passed): fixed-depth searches are invoked at depths 1, 2, …, k for some
2 ≤ k ≤ 10 (recorded newest-first in the ghost log); the depth-1 search
carries no deadline and every deeper search carries one; every layer below
the newest polled its post-search deadline check negative; if the newest
layer's post-check was positive its result is discarded — the returned
choice and stats are the previous layer's (of depth k−1), with only
`progress_on_next_layer` taken from the cancelled layer — and otherwise
k = 10 and the depth-10 result is returned; and if the deadline elapses
during the newest search (a positive tick inside its poll-clock window) the
post-check is positive, so that layer is discarded. -/
theorem c7_iterative_deepening_schedule [DecidableEq B] (ctx : Ctx B M)
    (board : B) (st : RunSt B M)
    (hmono : ∀ i j, i ≤ j → ctx.tick i = true → ctx.tick j = true) :
    ∃ (k : Nat) (cK : FixedCall M) (rest : List (FixedCall M))
      (c1 : FixedCall M),
      2 ≤ k ∧ k ≤ 10 ∧
      (nextActionID ctx board st).2.fixedCalls =
        ((cK :: rest) ++ [c1]) ++ st.fixedCalls ∧
      c1.depth = 1 ∧ c1.hasDeadline = false ∧
      (cK :: rest).map (fun c => (c.depth, c.hasDeadline)) =
        ((List.range' 2 (k - 1)).map (fun e => (e, true))).reverse ∧
      cK.depth = k ∧
      (prevFixedCall rest c1).depth = k - 1 ∧
      (∀ c ∈ cK :: rest, c.depth < k → ctx.tick c.clockAfter = false) ∧
      (ctx.tick cK.clockAfter = true →
        (nextActionID ctx board st).1.chosen =
          (prevFixedCall rest c1).action ∧
        (nextActionID ctx board st).1.stats =
          { (prevFixedCall rest c1).stats with
            progressOnNextLayer := cK.stats.progressOnNextLayer,
            depth := k - 1 }) ∧
      (ctx.tick cK.clockAfter = false →
        k = 10 ∧
        (nextActionID ctx board st).1.chosen = cK.action ∧
        (nextActionID ctx board st).1.stats =
          { cK.stats with depth := 10 }) ∧
      ((∃ i, cK.clockBefore ≤ i ∧ i < cK.clockAfter ∧ ctx.tick i = true) →
        ctx.tick cK.clockAfter = true) := by
  unfold nextActionID
  dsimp only
  rw [idPostProcess_chosen, idPostProcess_stats, idPostProcess_fixedCalls]
  set counted := upd st.boardPlayedTimes board (st.boardPlayedTimes board + 1)
    with hcounted
  set st0 : RunSt B M := { st with boardPlayedTimes := counted } with hst0
  set r1 := nextActionFixed ctx board 1 false st0 with hr1
  set c1 : FixedCall M :=
    ⟨1, false, st0.clock, r1.2.clock, r1.1.1, r1.1.2.2⟩ with hc1
  have hfc1 : r1.2.fixedCalls = c1 :: st.fixedCalls := by
    rw [hr1, hc1]
    exact nextActionFixed_fixedCalls ctx board 1 false st0
  obtain ⟨calls, hA, hB, hC, hNE, hD, hE⟩ :=
    idLoop_spec ctx board 9 2 r1.1 1 r1.2
  cases calls with
  | nil => exact absurd (Eq.refl []) (hNE (by norm_num))
  | cons cK rest =>
    obtain ⟨hdepthK, hcase⟩ := hE
    have hk2 : cK.depth = 2 + rest.length := hdepthK
    have hlen : (cK :: rest).length ≤ 9 := hC
    have hkle : cK.depth ≤ 10 := by
      simp only [List.length_cons] at hlen
      omega
    have hBn : (cK :: rest).map (fun c => (c.depth, c.hasDeadline)) =
        ((List.range' 2 (cK.depth - 1)).map (fun e => (e, true))).reverse := by
      have : (cK :: rest).length = cK.depth - 1 := by
        simp only [List.length_cons]
        omega
      rw [← this]
      exact hB
    have hprevd : (prevFixedCall rest c1).depth = cK.depth - 1 := by
      cases rest with
      | nil =>
        simp only [prevFixedCall, hc1]
        simp only [List.length_nil] at hk2
        omega
      | cons cH rest2 =>
        obtain ⟨_, htail⟩ := projHead cK (cH :: rest2) (cK.depth - 1) hBn
        obtain ⟨hh, _⟩ := projHead cH rest2 (cK.depth - 1 - 1) htail
        simp only [prevFixedCall]
        simp only [List.length_cons] at hk2
        omega
    refine ⟨cK.depth, cK, rest, c1, by omega, hkle, ?_, by rw [hc1],
      by rw [hc1], hBn, rfl, hprevd, ?_, ?_, ?_, ?_⟩
    · rw [hA, hfc1]
      simp
    · intro c hc hlt
      refine hD c hc ?_
      simp only [List.length_cons]
      omega
    · intro htick
      rcases hcase with ⟨_, ha, hs, hd2⟩ | ⟨hf, _, _, _, _⟩
      · constructor
        · rw [ha]
          cases rest <;> rfl
        · rw [hs, hd2]
          cases rest with
          | nil =>
            simp only [prevAction, prevStats, prevDepth, prevFixedCall, hc1]
            have h2d : cK.depth = 2 := by simpa using hk2
            rw [h2d]
          | cons cH rest2 =>
            simp only [prevAction, prevStats, prevDepth, prevFixedCall]
            have : cH.depth = cK.depth - 1 := by
              have := hprevd
              simpa [prevFixedCall] using this
            rw [this]
      · rw [hf] at htick
        exact absurd htick (by simp)
    · intro htick
      rcases hcase with ⟨ht, _, _, _⟩ | ⟨_, hlen9, ha, hs, hd2⟩
      · rw [ht] at htick
        exact absurd htick (by simp)
      · have hk10 : cK.depth = 10 := by
          simp only [List.length_cons] at hlen9
          omega
        refine ⟨hk10, by rw [ha], ?_⟩
        rw [hs, hd2, hk10]
    · rintro ⟨i, hi1, hi2, hi3⟩
      exact hmono i cK.clockAfter (by omega) hi3

end ChessAlgo

namespace ChessAlgo

/-- Context for the C7 witness: a deadline that never passes (trivially
monotone). -/
def c7Ctx : Ctx Nat Nat :=
  { rules := c8Rules, modules := 0, tick := fun _ => false }

/-- Witness for C7 at a concrete engine, board and state, with the monotone
deadline hypothesis discharged. -/
theorem c7_iterative_deepening_schedule_witness :
    (∀ i j : Nat, i ≤ j → c7Ctx.tick i = true → c7Ctx.tick j = true) ∧
    (∃ (k : Nat) (cK : FixedCall Nat) (rest : List (FixedCall Nat))
      (c1 : FixedCall Nat),
      2 ≤ k ∧ k ≤ 10 ∧
      (nextActionID c7Ctx 0 emptySt).2.fixedCalls =
        ((cK :: rest) ++ [c1]) ++ emptySt.fixedCalls ∧
      c1.depth = 1 ∧ c1.hasDeadline = false ∧
      (cK :: rest).map (fun c => (c.depth, c.hasDeadline)) =
        ((List.range' 2 (k - 1)).map (fun e => (e, true))).reverse ∧
      cK.depth = k ∧
      (prevFixedCall rest c1).depth = k - 1 ∧
      (∀ c ∈ cK :: rest, c.depth < k → c7Ctx.tick c.clockAfter = false) ∧
      (c7Ctx.tick cK.clockAfter = true →
        (nextActionID c7Ctx 0 emptySt).1.chosen =
          (prevFixedCall rest c1).action ∧
        (nextActionID c7Ctx 0 emptySt).1.stats =
          { (prevFixedCall rest c1).stats with
            progressOnNextLayer := cK.stats.progressOnNextLayer,
            depth := k - 1 }) ∧
      (c7Ctx.tick cK.clockAfter = false →
        k = 10 ∧
        (nextActionID c7Ctx 0 emptySt).1.chosen = cK.action ∧
        (nextActionID c7Ctx 0 emptySt).1.stats =
          { cK.stats with depth := 10 }) ∧
      ((∃ i, cK.clockBefore ≤ i ∧ i < cK.clockAfter ∧
          c7Ctx.tick i = true) →
        c7Ctx.tick cK.clockAfter = true)) :=
  ⟨fun _ _ _ hf => absurd hf Bool.false_ne_true,
   c7_iterative_deepening_schedule c7Ctx 0 emptySt
     (fun _ _ _ hf => absurd hf Bool.false_ne_true)⟩

end ChessAlgo

namespace ChessAlgo

variable {B M : Type}

/-! ### C5: alpha-beta versus plain minimax.

Property 4 of spec.md §8 claims the ALPHA_BETA module never changes the
selected best move when every other module and input is identical.  With the
transposition table disabled this is proved below
(`c5_alpha_beta_selection_agrees`): the two searches return the same score
and the same move from the root window.  With the transposition table
enabled the claim fails: an alpha-beta cutoff stores the partial score of the
interrupted node in the table, and a later transposition into the same
position at lower remaining depth reuses that bound as if it were exact
(`c5_counterexample_cutoff_reuse_flips_selection`). -/

theorem f32MIN_le_f32MAX : f32MIN ≤ f32MAX := by
  have h : (0 : ℚ) ≤ f32MAX := by rw [f32MAX]; norm_num
  rw [f32MIN]
  linarith

theorem childKey_none (c : M × B × Option (TranspositionEntry M))
    (hc : c.2.2 = none) : childKey c = 0 := by
  unfold childKey
  rw [hc]

theorem insertStable_all {α : Type} (le : α → α → Bool) (x : α)
    (l : List α) (h : ∀ y ∈ l, le y x = true) :
    insertStable le x l = l ++ [x] := by
  induction l with
  | nil => rfl
  | cons y ys ih =>
    rw [insertStable, if_pos (h y (List.mem_cons_self _ _)),
      ih (fun z hz => h z (List.mem_cons.mpr (Or.inr hz)))]
    rfl

theorem foldl_insertStable_all {α : Type} (le : α → α → Bool) :
    ∀ (l acc : List α),
      (∀ x ∈ l, ∀ y ∈ acc, le y x = true) →
      (∀ x ∈ l, ∀ y ∈ l, le y x = true) →
      l.foldl (fun acc x => insertStable le x acc) acc = acc ++ l
  | [], acc, _, _ => by simp
  | x :: xs, acc, hacc, hl => by
    have hacc2 : ∀ z ∈ xs, ∀ y ∈ acc ++ [x], le y z = true := by
      intro z hz y hy
      rcases List.mem_append.mp hy with h | h
      · exact hacc z (List.mem_cons.mpr (Or.inr hz)) y h
      · rw [List.mem_singleton.mp h]
        exact hl z (List.mem_cons.mpr (Or.inr hz)) x (List.mem_cons_self _ _)
    have hl2 : ∀ z ∈ xs, ∀ y ∈ xs, le y z = true := by
      intro z hz y hy
      exact hl z (List.mem_cons.mpr (Or.inr hz)) y
        (List.mem_cons.mpr (Or.inr hy))
    rw [List.foldl_cons,
      insertStable_all le x acc
        (fun y hy => hacc x (List.mem_cons_self _ _) y hy),
      foldl_insertStable_all le xs (acc ++ [x]) hacc2 hl2]
    simp

theorem stableSortBy_all {α : Type} (le : α → α → Bool) (l : List α)
    (h : ∀ x ∈ l, ∀ y ∈ l, le y x = true) : stableSortBy le l = l := by
  rw [stableSortBy, foldl_insertStable_all le l []
    (fun x _ y hy => absurd hy (List.not_mem_nil y)) h]
  simp

theorem newEvalIsBetter_of_none (mx : Bool) (old newEv : Evaluation M)
    (v : ℚ) (ho : old.eval = none) (hn : newEv.eval = some v) :
    newEvalIsBetter mx old newEv = true := by
  simp [newEvalIsBetter, ho, hn]

theorem newEvalIsBetter_some_max (old newEv : Evaluation M) (ov nv : ℚ)
    (ho : old.eval = some ov) (hn : newEv.eval = some nv) :
    newEvalIsBetter true old newEv = decide (ov < nv) := by
  simp [newEvalIsBetter, ho, hn]

theorem newEvalIsBetter_some_min (old newEv : Evaluation M) (ov nv : ℚ)
    (ho : old.eval = some ov) (hn : newEv.eval = some nv) :
    newEvalIsBetter false old newEv = decide (nv < ov) := by
  simp [newEvalIsBetter, ho, hn]

theorem bestReplace_eval (ctx : Ctx B M) (mx o : Bool) (cm : M)
    (best ev : Evaluation M) :
    (bestReplace ctx mx o cm best ev).eval =
      if newEvalIsBetter mx best ev then ev.eval else best.eval := by
  unfold bestReplace
  split
  · rfl
  · rfl

theorem bestReplace_nextAction (ctx : Ctx B M) (mx o : Bool) (cm : M)
    (best ev : Evaluation M) :
    (bestReplace ctx mx o cm best ev).nextAction =
      if newEvalIsBetter mx best ev then some (Action.makeMove cm)
      else best.nextAction := by
  unfold bestReplace
  split
  · rfl
  · rfl

theorem alphaBetaUpdate_true (ev : Evaluation M) (v a b : ℚ)
    (h : ev.eval = some v) :
    alphaBetaUpdate true ev a b = (max a v, b) := by
  unfold alphaBetaUpdate
  rw [h]
  simp

theorem alphaBetaUpdate_false (ev : Evaluation M) (v a b : ℚ)
    (h : ev.eval = some v) :
    alphaBetaUpdate false ev a b = (a, min b v) := by
  unfold alphaBetaUpdate
  rw [h]
  simp

theorem incsUpdate_off (ctx : Ctx B M) (board : B) (cm : M) (w bk : ℚ)
    (h : moduleEnabled ctx.modules TAPERED_INCREMENTAL_PESTO_PSQT = false) :
    incsUpdate ctx board cm w bk = (w, bk) := by
  unfold incsUpdate
  rw [h]
  simp

/-- Two masks that agree on the incremental-PSQT bit drive the accumulator
step identically: the step is a pure function of the node's board and the
move, independent of the child's search result. -/
theorem incsUpdate_congr (r : Rules B M) (t : Nat → Bool) (m1 m2 : Nat)
    (h : moduleEnabled m1 TAPERED_INCREMENTAL_PESTO_PSQT =
      moduleEnabled m2 TAPERED_INCREMENTAL_PESTO_PSQT)
    (board : B) (cm : M) (w bk : ℚ) :
    incsUpdate (⟨r, m1, t⟩ : Ctx B M) board cm w bk =
      incsUpdate (⟨r, m2, t⟩ : Ctx B M) board cm w bk := by
  unfold incsUpdate
  dsimp only
  rw [h]

end ChessAlgo

namespace ChessAlgo

variable {B M : Type}

/-- The `stats.max_depth` update of `node_eval_recursive` lines 145–147. -/
def bumpMax (depth : Nat) (st : RunSt B M) : RunSt B M :=
  if depth > st.stats.maxDepth then
    { st with stats := { st.stats with maxDepth := depth } }
  else st

/-- The ghost extension-log cons of the per-child loop. -/
def pushExt (board : B) (cm : M) (nb : B) (numExtensions e : Nat)
    (st : RunSt B M) : RunSt B M :=
  { st with extLog := ⟨board, cm, nb, numExtensions, e⟩ :: st.extLog }

/-- The `stats.nodes_visited` increment of line 200. -/
def bumpNodes (st : RunSt B M) : RunSt B M :=
  { st with stats := { st.stats with
      nodesVisited := st.stats.nodesVisited + 1 } }

/-- The `stats.alpha_beta_breaks` increment of line 239. -/
def bumpBreaks (st : RunSt B M) : RunSt B M :=
  { st with stats := { st.stats with
      alphaBetaBreaks := st.stats.alphaBetaBreaks + 1 } }

theorem bumpMax_prediction (depth : Nat) (st : RunSt B M) :
    (bumpMax depth st).prediction = st.prediction := by
  unfold bumpMax
  split
  · rfl
  · rfl

theorem bumpMax_boardPlayedTimes (depth : Nat) (st : RunSt B M) :
    (bumpMax depth st).boardPlayedTimes = st.boardPlayedTimes := by
  unfold bumpMax
  split
  · rfl
  · rfl

/-- One iteration of the per-child loop when no deadline was passed and the
move index is in range: the deadline poll and the (dead) SKIP_BAD_MOVES test
fall away. -/
theorem childLoop_cons_noDeadline [DecidableEq B] (ctx : Ctx B M)
    (recur : B → Nat → ℚ → ℚ → Bool → Bool → Nat → ℚ → ℚ → RunSt B M →
      Evaluation M × RunSt B M)
    (board : B) (depth : Nat) (maximise original : Bool)
    (numExtensions n : Nat) (cm : M) (nb : B)
    (te : Option (TranspositionEntry M))
    (rest : List (M × B × Option (TranspositionEntry M))) (i : Nat)
    (alpha beta : ℚ) (best : Evaluation M) (incs : ℚ × ℚ) (st : RunSt B M)
    (hi : i < n) :
    childLoop ctx recur board depth maximise original false numExtensions n
      ((cm, nb, te) :: rest) i alpha beta best incs st =
    (let e := searchExtensionsCalculate numExtensions n
        (ctx.rules.checkersCount nb)
        (moduleEnabled ctx.modules SEARCH_EXTENSIONS)
     let r := childEvaluate ctx recur nb depth e numExtensions alpha beta
        false incs.1 incs.2 te
        (pushExt board cm nb numExtensions e (bumpMax depth st))
     let stD := bumpNodes r.2
     let best2 := bestReplace ctx maximise original cm best r.1
     if moduleEnabled ctx.modules ALPHA_BETA then
       let ab := alphaBetaUpdate maximise r.1 alpha beta
       if ab.1 > ab.2 then ((best2, false), bumpBreaks stD)
       else
         let incs2 := incsUpdate ctx board cm incs.1 incs.2
         let best3 := { best2 with
           whiteIncrementalPsqtEval := some incs2.1,
           blackIncrementalPsqtEval := some incs2.2 }
         childLoop ctx recur board depth maximise original false
           numExtensions n rest (i + 1) ab.1 ab.2 best3 incs2 stD
     else
       let incs2 := incsUpdate ctx board cm incs.1 incs.2
       let best3 := { best2 with
         whiteIncrementalPsqtEval := some incs2.1,
         blackIncrementalPsqtEval := some incs2.2 }
       childLoop ctx recur board depth maximise original false numExtensions
         n rest (i + 1) alpha beta best3 incs2 stD) := by
  have hle : (i : ℚ) ≤ (n : ℚ) * 1 := by
    rw [mul_one]
    exact_mod_cast le_of_lt hi
  rw [childLoop]
  simp only [Bool.false_and, Bool.false_eq_true, if_false,
    decide_eq_false (not_lt.mpr hle), Bool.and_false, bumpMax, pushExt,
    bumpNodes, bumpBreaks]

end ChessAlgo

namespace ChessAlgo

variable {B M : Type}

/-- After the recursive descent of `child_evaluate`, undoing the speculative
increment restores the repetition-prediction function exactly, and the
actual-game counter is untouched. -/
theorem childPredRestore [DecidableEq B] (ctx : Ctx B M) (fuel : Nat)
    (nb : B) (d : Nat) (a bq : ℚ) (o hd : Bool) (ne : Nat) (w bk : ℚ)
    (st : RunSt B M) :
    upd (nodeEvalRec ctx fuel nb d a bq o hd ne w bk
        { st with
          prediction := upd st.prediction nb (st.prediction nb + 1)
          }).2.prediction nb
      ((nodeEvalRec ctx fuel nb d a bq o hd ne w bk
        { st with
          prediction := upd st.prediction nb (st.prediction nb + 1)
          }).2.prediction nb - 1) = st.prediction ∧
    (nodeEvalRec ctx fuel nb d a bq o hd ne w bk
        { st with
          prediction := upd st.prediction nb (st.prediction nb + 1)
          }).2.boardPlayedTimes = st.boardPlayedTimes := by
  obtain ⟨hp, hb, -, -, -⟩ := nodeEvalRec_stepOK ctx fuel nb d a bq o hd ne
    w bk { st with
      prediction := upd st.prediction nb (st.prediction nb + 1) }
  constructor
  · funext x
    by_cases hx : x = nb
    · subst hx
      simp only [upd, if_pos rfl]
      rw [hp x]
      simp [upd]
    · simp only [upd, if_neg hx]
      rw [hp x]
      simp [upd, hx]
  · rw [hb]

/-- When a `newEvalIsBetter` replacement fires, the new evaluation has a
score, strictly better for the side to move than any score the old one had.
-/
theorem newEvalIsBetter_true_elim (mx : Bool) (old newEv : Evaluation M)
    (h : newEvalIsBetter mx old newEv = true) :
    ∃ v, newEv.eval = some v ∧
      ∀ ov, old.eval = some ov →
        (mx = true → ov < v) ∧ (mx = false → v < ov) := by
  unfold newEvalIsBetter at h
  cases hne : newEv.eval with
  | none => rw [hne] at h; simp at h
  | some v =>
    refine ⟨v, rfl, ?_⟩
    intro ov hov
    rw [hne, hov] at h
    simp at h
    cases mx
    · simp at h
      exact ⟨fun hc => absurd hc (by simp), fun _ => h⟩
    · simp at h
      exact ⟨fun _ => h, fun hc => absurd hc (by simp)⟩

/-- With ALPHA_BETA disabled and no deadline the per-child loop never takes
an early-return path, and its result keeps a score at least (maximiser) or
at most (minimiser) any score the carried best already had. -/
theorem childLoop_noAB_mono [DecidableEq B] (ctx : Ctx B M)
    (hAB : moduleEnabled ctx.modules ALPHA_BETA = false)
    (recur : B → Nat → ℚ → ℚ → Bool → Bool → Nat → ℚ → ℚ → RunSt B M →
      Evaluation M × RunSt B M)
    (board : B) (depth : Nat) (maximise original : Bool)
    (numExtensions n : Nat) :
    ∀ (l : List (M × B × Option (TranspositionEntry M))) (i : Nat)
      (alpha beta : ℚ) (best : Evaluation M) (incs : ℚ × ℚ)
      (st : RunSt B M), i + l.length ≤ n →
      (childLoop ctx recur board depth maximise original false numExtensions
        n l i alpha beta best incs st).1.2 = false ∧
      ∀ fv, best.eval = some fv →
        ∃ fv', (childLoop ctx recur board depth maximise original false
            numExtensions n l i alpha beta best incs st).1.1.eval = some fv' ∧
          (maximise = true → fv ≤ fv') ∧ (maximise = false → fv' ≤ fv) := by
  intro l
  induction l with
  | nil =>
    intro i alpha beta best incs st hn
    exact ⟨rfl, fun fv hfv =>
      ⟨fv, hfv, fun _ => le_refl fv, fun _ => le_refl fv⟩⟩
  | cons c rest ih =>
    obtain ⟨cm, nb, te⟩ := c
    intro i alpha beta best incs st hn
    have hiLt : i < n := by
      simp only [List.length_cons] at hn
      omega
    rw [childLoop_cons_noDeadline ctx recur board depth maximise original
      numExtensions n cm nb te rest i alpha beta best incs st hiLt]
    simp only [hAB, Bool.false_eq_true, if_false]
    have hrest : (i + 1) + rest.length ≤ n := by
      simp only [List.length_cons] at hn
      omega
    set r := childEvaluate ctx recur nb depth
      (searchExtensionsCalculate numExtensions n (ctx.rules.checkersCount nb)
        (moduleEnabled ctx.modules SEARCH_EXTENSIONS))
      numExtensions alpha beta false incs.1 incs.2 te
      (pushExt board cm nb numExtensions
        (searchExtensionsCalculate numExtensions n
          (ctx.rules.checkersCount nb)
          (moduleEnabled ctx.modules SEARCH_EXTENSIONS))
        (bumpMax depth st)) with hr
    set best2 := bestReplace ctx maximise original cm best r.1 with hbest2
    set incs2 := incsUpdate ctx board cm incs.1 incs.2 with hincs2
    set best3 : Evaluation M := { best2 with
      whiteIncrementalPsqtEval := some incs2.1,
      blackIncrementalPsqtEval := some incs2.2 } with hbest3
    obtain ⟨hflag, hmono⟩ := ih (i + 1) alpha beta best3 incs2 (bumpNodes r.2)
      hrest
    refine ⟨hflag, ?_⟩
    intro fv hfv
    by_cases hrep : newEvalIsBetter maximise best r.1 = true
    · obtain ⟨w, hw, hcomp⟩ := newEvalIsBetter_true_elim maximise best r.1
        hrep
      have hb3 : best3.eval = some w := by
        rw [hbest3]
        show best2.eval = some w
        rw [hbest2, bestReplace_eval, if_pos hrep, hw]
      obtain ⟨fv', hfv', hup, hdown⟩ := hmono w hb3
      obtain ⟨hup2, hdown2⟩ := hcomp fv hfv
      refine ⟨fv', hfv', ?_, ?_⟩
      · intro hmx
        exact le_trans (le_of_lt (hup2 hmx)) (hup hmx)
      · intro hmx
        exact le_trans (hdown hmx) (le_of_lt (hdown2 hmx))
    · have hb3 : best3.eval = some fv := by
        rw [hbest3]
        show best2.eval = some fv
        rw [hbest2, bestReplace_eval, if_neg hrep, hfv]
      exact hmono fv hb3

end ChessAlgo

namespace ChessAlgo

variable {B M : Type}

/-- The fail-soft simulation relation between an alpha-beta run (window
`(alpha, beta)`, modules `mOn`) and a plain-minimax run (full window,
modules `mOff`) of `node_eval_recursive` at the same position, depth and
extension budget: both runs produce a score; a score below `alpha` fail-low
dominates the plain score, a score above `beta` is dominated by it, and a
score inside the window is exact and comes with the same selected move. -/
def TriHolds [DecidableEq B] (r : Rules B M) (t : Nat → Bool)
    (mOn mOff : Nat) (fuel : Nat) : Prop :=
  ∀ (board : B) (depth : Nat) (alpha beta : ℚ) (original : Bool)
    (numExtensions : Nat) (wInc bInc : ℚ) (stOn stOff : RunSt B M),
    depth + 5 ≤ fuel + numExtensions → numExtensions ≤ 4 → alpha ≤ beta →
    stOn.prediction = stOff.prediction →
    stOn.boardPlayedTimes = stOff.boardPlayedTimes →
    ∃ gv fv,
      (nodeEvalRec ⟨r, mOn, t⟩ fuel board depth alpha beta original false
        numExtensions wInc bInc stOn).1.eval = some gv ∧
      (nodeEvalRec ⟨r, mOff, t⟩ fuel board depth f32MIN f32MAX original
        false numExtensions wInc bInc stOff).1.eval = some fv ∧
      (gv < alpha → fv ≤ gv) ∧
      (beta < gv → gv ≤ fv) ∧
      (alpha ≤ gv → gv ≤ beta → gv = fv ∧
        (nodeEvalRec ⟨r, mOn, t⟩ fuel board depth alpha beta original false
          numExtensions wInc bInc stOn).1.nextAction =
        (nodeEvalRec ⟨r, mOff, t⟩ fuel board depth f32MIN f32MAX original
          false numExtensions wInc bInc stOff).1.nextAction)

/-- Loop invariant of the fail-soft simulation at a maximising node with
original window `(a0, b0)` and current alpha `ac`: either no child was
scored yet, or every child so far failed low (the plain best is dominated),
or some child fell inside the window (scores and selected moves agree, and
`ac` has been raised to the best score). -/
def RInvMax (a0 b0 ac : ℚ) (bestG bestF : Evaluation M) : Prop :=
  (bestG.eval = none ∧ bestF.eval = none ∧ ac = a0) ∨
  (∃ gv fv, bestG.eval = some gv ∧ bestF.eval = some fv ∧ gv < a0 ∧
    fv ≤ gv ∧ ac = a0) ∨
  (∃ gv, bestG.eval = some gv ∧ bestF.eval = some gv ∧
    bestG.nextAction = bestF.nextAction ∧ a0 ≤ gv ∧ gv ≤ b0 ∧
    ac = max a0 gv)

/-- Loop invariant at a minimising node, mirror image of `RInvMax` with the
current beta `bc` falling instead of alpha rising. -/
def RInvMin (a0 b0 bc : ℚ) (bestG bestF : Evaluation M) : Prop :=
  (bestG.eval = none ∧ bestF.eval = none ∧ bc = b0) ∨
  (∃ gv fv, bestG.eval = some gv ∧ bestF.eval = some fv ∧ b0 < gv ∧
    gv ≤ fv ∧ bc = b0) ∨
  (∃ gv, bestG.eval = some gv ∧ bestF.eval = some gv ∧
    bestG.nextAction = bestF.nextAction ∧ a0 ≤ gv ∧ gv ≤ b0 ∧
    bc = min b0 gv)

/-- Outcome of the per-child loop comparison for original window
`(a0, b0)`: nothing scored (empty list), fail low, exact with move
agreement, or fail high. -/
def ROutC (a0 b0 : ℚ) (l : List (M × B × Option (TranspositionEntry M)))
    (G F : Evaluation M) : Prop :=
  (l = [] ∧ G.eval = none ∧ F.eval = none) ∨
  (∃ gv fv, G.eval = some gv ∧ F.eval = some fv ∧ gv < a0 ∧ fv ≤ gv) ∨
  (∃ gv, G.eval = some gv ∧ F.eval = some gv ∧
    G.nextAction = F.nextAction ∧ a0 ≤ gv ∧ gv ≤ b0) ∨
  (∃ gv fv, G.eval = some gv ∧ F.eval = some fv ∧ b0 < gv ∧ gv ≤ fv)

end ChessAlgo

namespace ChessAlgo

variable {B M : Type}

theorem childLoopTriMax [DecidableEq B] (r : Rules B M) (t : Nat → Bool)
    (mOn mOff : Nat)
    (hABon : moduleEnabled mOn ALPHA_BETA = true)
    (hABoff : moduleEnabled mOff ALPHA_BETA = false)
    (hInc : moduleEnabled mOn TAPERED_INCREMENTAL_PESTO_PSQT =
      moduleEnabled mOff TAPERED_INCREMENTAL_PESTO_PSQT)
    (hSE : moduleEnabled mOn SEARCH_EXTENSIONS =
      moduleEnabled mOff SEARCH_EXTENSIONS)
    (fuel : Nat) (ih : TriHolds r t mOn mOff fuel)
    (board : B) (depth : Nat) (original : Bool) (numExtensions n : Nat)
    (hdepth : 1 ≤ depth) (hfuel : depth + 4 ≤ fuel + numExtensions)
    (hext : numExtensions ≤ 4) (a0 b0 : ℚ) (ha0b : a0 ≤ b0) :
    ∀ (l : List (M × B × Option (TranspositionEntry M))) (i : Nat)
      (ac : ℚ) (bestG bestF : Evaluation M) (incs : ℚ × ℚ)
      (stOn stOff : RunSt B M),
      (∀ c ∈ l, c.2.2 = (none : Option (TranspositionEntry M))) →
      i + l.length ≤ n →
      ac ≤ b0 →
      stOn.prediction = stOff.prediction →
      stOn.boardPlayedTimes = stOff.boardPlayedTimes →
      RInvMax a0 b0 ac bestG bestF →
      (childLoop ⟨r, mOn, t⟩ (nodeEvalRec ⟨r, mOn, t⟩ fuel) board depth
        true original false numExtensions n l i ac b0 bestG incs
        stOn).1.2 = false ∧
      (childLoop ⟨r, mOff, t⟩ (nodeEvalRec ⟨r, mOff, t⟩ fuel) board depth
        true original false numExtensions n l i f32MIN f32MAX bestF incs
        stOff).1.2 = false ∧
      ROutC a0 b0 l
        (childLoop ⟨r, mOn, t⟩ (nodeEvalRec ⟨r, mOn, t⟩ fuel) board depth
          true original false numExtensions n l i ac b0 bestG incs
          stOn).1.1
        (childLoop ⟨r, mOff, t⟩ (nodeEvalRec ⟨r, mOff, t⟩ fuel) board depth
          true original false numExtensions n l i f32MIN f32MAX bestF incs
          stOff).1.1 := by
  intro l
  induction l with
  | nil =>
    intro i ac bestG bestF incs stOn stOff hte hn hacb hpred hbpt hinv
    refine ⟨rfl, rfl, ?_⟩
    rcases hinv with ⟨hG, hF, -⟩ | ⟨gv, fv, h1, h2, h3, h4, -⟩ |
      ⟨gv, h1, h2, h3, h4, h5, -⟩
    · exact Or.inl ⟨rfl, hG, hF⟩
    · exact Or.inr (Or.inl ⟨gv, fv, h1, h2, h3, h4⟩)
    · exact Or.inr (Or.inr (Or.inl ⟨gv, h1, h2, h3, h4, h5⟩))
  | cons c rest iht =>
    obtain ⟨cm, nb, te⟩ := c
    intro i ac bestG bestF incs stOn stOff hte hn hacb hpred hbpt hinv
    have hteH : te = none := hte (cm, nb, te) (List.mem_cons_self _ _)
    subst hteH
    have hteT : ∀ c ∈ rest, c.2.2 =
        (none : Option (TranspositionEntry M)) :=
      fun c hc => hte c (List.mem_cons.mpr (Or.inr hc))
    have hiLt : i < n := by
      simp only [List.length_cons] at hn
      omega
    have hrest : (i + 1) + rest.length ≤ n := by
      simp only [List.length_cons] at hn
      omega
    rw [childLoop_cons_noDeadline (⟨r, mOn, t⟩ : Ctx B M)
        (nodeEvalRec ⟨r, mOn, t⟩ fuel) board depth true original
        numExtensions n cm nb none rest i ac b0 bestG incs stOn hiLt,
      childLoop_cons_noDeadline (⟨r, mOff, t⟩ : Ctx B M)
        (nodeEvalRec ⟨r, mOff, t⟩ fuel) board depth true original
        numExtensions n cm nb none rest i f32MIN f32MAX bestF incs stOff
        hiLt]
    dsimp only
    rw [← hSE]
    simp only [hABon, hABoff, Bool.false_eq_true, if_false, if_true,
      childEvaluate]
    rw [← incsUpdate_congr r t mOn mOff hInc board cm incs.1 incs.2]
    set e := searchExtensionsCalculate numExtensions n (r.checkersCount nb)
      (moduleEnabled mOn SEARCH_EXTENSIONS) with he
    set stCOn := pushExt board cm nb numExtensions e (bumpMax depth stOn)
      with hstCOn
    set stCOff := pushExt board cm nb numExtensions e (bumpMax depth stOff)
      with hstCOff
    set st1On : RunSt B M := { stCOn with
      prediction := upd stCOn.prediction nb (stCOn.prediction nb + 1) }
      with hst1On
    set st1Off : RunSt B M := { stCOff with
      prediction := upd stCOff.prediction nb (stCOff.prediction nb + 1) }
      with hst1Off
    set EOn := nodeEvalRec (⟨r, mOn, t⟩ : Ctx B M) fuel nb (depth - 1 + e)
      ac b0 false false (numExtensions + e) incs.1 incs.2 st1On with hEOn
    set EOff := nodeEvalRec (⟨r, mOff, t⟩ : Ctx B M) fuel nb
      (depth - 1 + e) f32MIN f32MAX false false (numExtensions + e) incs.1
      incs.2 st1Off with hEOff
    set best2G := bestReplace (⟨r, mOn, t⟩ : Ctx B M) true original cm
      bestG EOn.1 with hbest2G
    set best2F := bestReplace (⟨r, mOff, t⟩ : Ctx B M) true original cm
      bestF EOff.1 with hbest2F
    set incs2 := incsUpdate (⟨r, mOn, t⟩ : Ctx B M) board cm incs.1
      incs.2 with hincs2
    set best3G : Evaluation M := { best2G with
      whiteIncrementalPsqtEval := some incs2.1,
      blackIncrementalPsqtEval := some incs2.2 } with hbest3G
    set best3F : Evaluation M := { best2F with
      whiteIncrementalPsqtEval := some incs2.1,
      blackIncrementalPsqtEval := some incs2.2 } with hbest3F
    set stDOn := bumpNodes { EOn.2 with
      prediction := upd EOn.2.prediction nb (EOn.2.prediction nb - 1) }
      with hstDOn
    set stDOff := bumpNodes { EOff.2 with
      prediction := upd EOff.2.prediction nb (EOff.2.prediction nb - 1) }
      with hstDOff
    have he01 : e = 0 ∨ e = 1 := by
      rw [he]
      exact searchExtensionsCalculate_le_one numExtensions n
        (r.checkersCount nb) (moduleEnabled mOn SEARCH_EXTENSIONS)
    have hd5 : (depth - 1 + e) + 5 ≤ fuel + (numExtensions + e) := by
      omega
    have hx4 : numExtensions + e ≤ 4 := by
      rcases he01 with h0 | h1
      · omega
      · have := (searchExtensionsCalculate_eq_one_iff numExtensions n
          (r.checkersCount nb) (moduleEnabled mOn SEARCH_EXTENSIONS)).mp
          (by rw [← he]; exact h1)
        omega
    have hCpred : stCOn.prediction = stCOff.prediction := by
      rw [hstCOn, hstCOff]
      show (bumpMax depth stOn).prediction = (bumpMax depth stOff).prediction
      rw [bumpMax_prediction, bumpMax_prediction, hpred]
    have hCbpt : stCOn.boardPlayedTimes = stCOff.boardPlayedTimes := by
      rw [hstCOn, hstCOff]
      show (bumpMax depth stOn).boardPlayedTimes =
        (bumpMax depth stOff).boardPlayedTimes
      rw [bumpMax_boardPlayedTimes, bumpMax_boardPlayedTimes, hbpt]
    have h1pred : st1On.prediction = st1Off.prediction := by
      rw [hst1On, hst1Off]
      show upd stCOn.prediction nb (stCOn.prediction nb + 1) =
        upd stCOff.prediction nb (stCOff.prediction nb + 1)
      rw [hCpred]
    have h1bpt : st1On.boardPlayedTimes = st1Off.boardPlayedTimes := by
      rw [hst1On, hst1Off]
      show stCOn.boardPlayedTimes = stCOff.boardPlayedTimes
      exact hCbpt
    obtain ⟨gi, fi, hgi, hfi, hlo, hhi, hmid⟩ := ih nb (depth - 1 + e) ac
      b0 false (numExtensions + e) incs.1 incs.2 st1On st1Off hd5 hx4 hacb
      h1pred h1bpt
    rw [← hEOn] at hgi hmid
    rw [← hEOff] at hfi hmid
    have hResOn := childPredRestore (⟨r, mOn, t⟩ : Ctx B M) fuel nb
      (depth - 1 + e) ac b0 false false (numExtensions + e) incs.1 incs.2
      stCOn
    rw [← hst1On, ← hEOn] at hResOn
    have hResOff := childPredRestore (⟨r, mOff, t⟩ : Ctx B M) fuel nb
      (depth - 1 + e) f32MIN f32MAX false false (numExtensions + e) incs.1
      incs.2 stCOff
    rw [← hst1Off, ← hEOff] at hResOff
    have hDpred : stDOn.prediction = stDOff.prediction := by
      rw [hstDOn, hstDOff]
      show upd EOn.2.prediction nb (EOn.2.prediction nb - 1) =
        upd EOff.2.prediction nb (EOff.2.prediction nb - 1)
      rw [hResOn.1, hResOff.1, hCpred]
    have hDbpt : stDOn.boardPlayedTimes = stDOff.boardPlayedTimes := by
      rw [hstDOn, hstDOff]
      show EOn.2.boardPlayedTimes = EOff.2.boardPlayedTimes
      rw [hResOn.2, hResOff.2, hCbpt]
    rw [alphaBetaUpdate_true EOn.1 gi ac b0 hgi]
    dsimp only
    by_cases hbr : max ac gi > b0
    · -- alpha-beta break at this child
      rw [if_pos hbr]
      have hgib : b0 < gi := by
        rcases lt_max_iff.mp hbr with h | h
        · exact absurd h (not_lt.mpr hacb)
        · exact h
      have hrepG : newEvalIsBetter true bestG EOn.1 = true := by
        rcases hinv with ⟨hGn, -, -⟩ | ⟨gv, fv, hGe, -, hgva, -, -⟩ |
          ⟨gv, hGe, -, -, -, hgvb, -⟩
        · exact newEvalIsBetter_of_none true bestG EOn.1 gi hGn hgi
        · rw [newEvalIsBetter_some_max bestG EOn.1 gv gi hGe hgi]
          exact decide_eq_true (by linarith)
        · rw [newEvalIsBetter_some_max bestG EOn.1 gv gi hGe hgi]
          exact decide_eq_true (by linarith)
      have hrepF : newEvalIsBetter true bestF EOff.1 = true := by
        have hgifi : gi ≤ fi := hhi hgib
        rcases hinv with ⟨-, hFn, -⟩ | ⟨gv, fv, -, hFe, hgva, hfvgv, -⟩ |
          ⟨gv, -, hFe, -, -, hgvb, -⟩
        · exact newEvalIsBetter_of_none true bestF EOff.1 fi hFn hfi
        · rw [newEvalIsBetter_some_max bestF EOff.1 fv fi hFe hfi]
          exact decide_eq_true (by linarith)
        · rw [newEvalIsBetter_some_max bestF EOff.1 gv fi hFe hfi]
          exact decide_eq_true (by linarith)
      have hg2 : best2G.eval = some gi := by
        rw [hbest2G, bestReplace_eval, if_pos hrepG, hgi]
      have hf3 : best3F.eval = some fi := by
        rw [hbest3F]
        show best2F.eval = some fi
        rw [hbest2F, bestReplace_eval, if_pos hrepF, hfi]
      obtain ⟨hflagF, hmonoF⟩ := childLoop_noAB_mono
        (⟨r, mOff, t⟩ : Ctx B M) hABoff (nodeEvalRec ⟨r, mOff, t⟩ fuel)
        board depth true original numExtensions n rest (i + 1) f32MIN
        f32MAX best3F incs2 stDOff hrest
      obtain ⟨fv', hfv', hup, -⟩ := hmonoF fi hf3
      exact ⟨rfl, hflagF, Or.inr (Or.inr (Or.inr ⟨gi, fv', hg2, hfv',
        hgib, le_trans (hhi hgib) (hup rfl)⟩))⟩
    · -- no break: recurse on the remaining children
      rw [if_neg hbr]
      have hmle : max ac gi ≤ b0 := not_lt.mp hbr
      have hgile : gi ≤ b0 := le_trans (le_max_right ac gi) hmle
      have hstep : RInvMax a0 b0 (max ac gi) best3G best3F ∧
          ∃ w, best3G.eval = some w := by
        rcases hinv with ⟨hGn, hFn, haca⟩ |
          ⟨gv, fv, hGe, hFe, hgva, hfvgv, haca⟩ |
          ⟨gv, hGe, hFe, hNa, hagv, hgvb, hacm⟩
        · -- first scored child
          subst haca
          have hrepG := newEvalIsBetter_of_none true bestG EOn.1 gi hGn hgi
          have hrepF := newEvalIsBetter_of_none true bestF EOff.1 fi hFn
            hfi
          have hG3 : best3G.eval = some gi := by
            rw [hbest3G]
            show best2G.eval = some gi
            rw [hbest2G, bestReplace_eval, if_pos hrepG, hgi]
          have hF3 : best3F.eval = some fi := by
            rw [hbest3F]
            show best2F.eval = some fi
            rw [hbest2F, bestReplace_eval, if_pos hrepF, hfi]
          by_cases hreg : gi < ac
          · exact ⟨Or.inr (Or.inl ⟨gi, fi, hG3, hF3, hreg, hlo hreg,
              max_eq_left (le_of_lt hreg)⟩), gi, hG3⟩
          · have hacgi : ac ≤ gi := not_lt.mp hreg
            obtain ⟨hgifi, -⟩ := hmid hacgi hgile
            have hN3 : best3G.nextAction = best3F.nextAction := by
              rw [hbest3G, hbest3F]
              show best2G.nextAction = best2F.nextAction
              rw [hbest2G, hbest2F, bestReplace_nextAction,
                bestReplace_nextAction, if_pos hrepG, if_pos hrepF]
            refine ⟨Or.inr (Or.inr ⟨gi, hG3, ?_, hN3, hacgi, hgile,
              rfl⟩), gi, hG3⟩
            rw [hgifi]
            exact hF3
        · -- all children so far failed low
          subst haca
          have hdG := newEvalIsBetter_some_max bestG EOn.1 gv gi hGe hgi
          have hdF := newEvalIsBetter_some_max bestF EOff.1 fv fi hFe hfi
          by_cases hreg : gi < ac
          · -- stays low
            have hfigi := hlo hreg
            have hmaxa : max ac gi = ac := max_eq_left (le_of_lt hreg)
            by_cases hgg : gv < gi
            · have hG3 : best3G.eval = some gi := by
                rw [hbest3G]
                show best2G.eval = some gi
                rw [hbest2G, bestReplace_eval, hdG,
                  if_pos (decide_eq_true hgg), hgi]
              by_cases hff : fv < fi
              · have hF3 : best3F.eval = some fi := by
                  rw [hbest3F]
                  show best2F.eval = some fi
                  rw [hbest2F, bestReplace_eval, hdF,
                    if_pos (decide_eq_true hff), hfi]
                exact ⟨Or.inr (Or.inl ⟨gi, fi, hG3, hF3, hreg, hfigi,
                  hmaxa⟩), gi, hG3⟩
              · have hF3 : best3F.eval = some fv := by
                  rw [hbest3F]
                  show best2F.eval = some fv
                  rw [hbest2F, bestReplace_eval, hdF,
                    if_neg (by simp [hff]), hFe]
                exact ⟨Or.inr (Or.inl ⟨gi, fv, hG3, hF3, hreg,
                  (by linarith), hmaxa⟩), gi, hG3⟩
            · have hG3 : best3G.eval = some gv := by
                rw [hbest3G]
                show best2G.eval = some gv
                rw [hbest2G, bestReplace_eval, hdG,
                  if_neg (by simp [hgg]), hGe]
              by_cases hff : fv < fi
              · have hF3 : best3F.eval = some fi := by
                  rw [hbest3F]
                  show best2F.eval = some fi
                  rw [hbest2F, bestReplace_eval, hdF,
                    if_pos (decide_eq_true hff), hfi]
                refine ⟨Or.inr (Or.inl ⟨gv, fi, hG3, hF3, hgva, ?_,
                  hmaxa⟩), gv, hG3⟩
                have := not_lt.mp hgg
                linarith
              · have hF3 : best3F.eval = some fv := by
                  rw [hbest3F]
                  show best2F.eval = some fv
                  rw [hbest2F, bestReplace_eval, hdF,
                    if_neg (by simp [hff]), hFe]
                exact ⟨Or.inr (Or.inl ⟨gv, fv, hG3, hF3, hgva, hfvgv,
                  hmaxa⟩), gv, hG3⟩
          · -- enters the window
            have hacgi : ac ≤ gi := not_lt.mp hreg
            obtain ⟨hgifi, -⟩ := hmid hacgi hgile
            have hgg : gv < gi := lt_of_lt_of_le hgva hacgi
            have hff : fv < fi := by
              rw [← hgifi]
              exact lt_of_le_of_lt hfvgv hgg
            have hG3 : best3G.eval = some gi := by
              rw [hbest3G]
              show best2G.eval = some gi
              rw [hbest2G, bestReplace_eval, hdG,
                if_pos (decide_eq_true hgg), hgi]
            have hF3 : best3F.eval = some fi := by
              rw [hbest3F]
              show best2F.eval = some fi
              rw [hbest2F, bestReplace_eval, hdF,
                if_pos (decide_eq_true hff), hfi]
            have hN3 : best3G.nextAction = best3F.nextAction := by
              rw [hbest3G, hbest3F]
              show best2G.nextAction = best2F.nextAction
              rw [hbest2G, hbest2F, bestReplace_nextAction,
                bestReplace_nextAction, hdG, hdF,
                if_pos (decide_eq_true hgg), if_pos (decide_eq_true hff)]
            refine ⟨Or.inr (Or.inr ⟨gi, hG3, ?_, hN3, hacgi, hgile,
              rfl⟩), gi, hG3⟩
            rw [hgifi]
            exact hF3
        · -- some child already scored inside the window
          have hgvac : gv ≤ ac := by
            rw [hacm]
            exact le_max_right a0 gv
          have hdG := newEvalIsBetter_some_max bestG EOn.1 gv gi hGe hgi
          have hdF := newEvalIsBetter_some_max bestF EOff.1 gv fi hFe hfi
          by_cases hreg : gi < ac
          · -- keep the window best
            have hacgv : ac = gv := by
              rw [hacm]
              exact max_eq_right hagv
            have hgigv : gi < gv := by
              rw [← hacgv]
              exact hreg
            have hfigi := hlo hreg
            have hG3 : best3G.eval = some gv := by
              rw [hbest3G]
              show best2G.eval = some gv
              rw [hbest2G, bestReplace_eval, hdG,
                if_neg (by simp; linarith), hGe]
            have hF3 : best3F.eval = some gv := by
              rw [hbest3F]
              show best2F.eval = some gv
              rw [hbest2F, bestReplace_eval, hdF,
                if_neg (by simp; linarith), hFe]
            have hN3 : best3G.nextAction = best3F.nextAction := by
              rw [hbest3G, hbest3F]
              show best2G.nextAction = best2F.nextAction
              rw [hbest2G, hbest2F, bestReplace_nextAction,
                bestReplace_nextAction, hdG, hdF,
                if_neg (by simp; linarith), if_neg (by simp; linarith)]
              exact hNa
            refine ⟨Or.inr (Or.inr ⟨gv, hG3, hF3, hN3, hagv, hgvb,
              ?_⟩), gv, hG3⟩
            rw [max_eq_left (le_of_lt hreg), hacm]
          · -- child at least as good as the window best
            have hacgi : ac ≤ gi := not_lt.mp hreg
            have hgvgi : gv ≤ gi := le_trans hgvac hacgi
            obtain ⟨hgifi, -⟩ := hmid hacgi hgile
            rcases lt_or_eq_of_le hgvgi with hlt | heq
            · -- strict improvement: both replace
              have hff : gv < fi := by
                rw [← hgifi]
                exact hlt
              have hG3 : best3G.eval = some gi := by
                rw [hbest3G]
                show best2G.eval = some gi
                rw [hbest2G, bestReplace_eval, hdG,
                  if_pos (decide_eq_true hlt), hgi]
              have hF3 : best3F.eval = some fi := by
                rw [hbest3F]
                show best2F.eval = some fi
                rw [hbest2F, bestReplace_eval, hdF,
                  if_pos (decide_eq_true hff), hfi]
              have hN3 : best3G.nextAction = best3F.nextAction := by
                rw [hbest3G, hbest3F]
                show best2G.nextAction = best2F.nextAction
                rw [hbest2G, hbest2F, bestReplace_nextAction,
                  bestReplace_nextAction, hdG, hdF,
                  if_pos (decide_eq_true hlt),
                  if_pos (decide_eq_true hff)]
              refine ⟨Or.inr (Or.inr ⟨gi, hG3, ?_, hN3,
                le_trans hagv hgvgi, hgile, ?_⟩), gi, hG3⟩
              · rw [hgifi]
                exact hF3
              · rw [max_eq_right hacgi, max_eq_right (le_trans hagv hgvgi)]
            · -- tie: first-found best is kept in both runs
              have hnff : ¬ gv < fi := by
                rw [← hgifi, ← heq]
                exact lt_irrefl gv
              have hG3 : best3G.eval = some gv := by
                rw [hbest3G]
                show best2G.eval = some gv
                rw [hbest2G, bestReplace_eval, hdG,
                  if_neg (by simp [heq]), hGe]
              have hF3 : best3F.eval = some gv := by
                rw [hbest3F]
                show best2F.eval = some gv
                rw [hbest2F, bestReplace_eval, hdF,
                  if_neg (by simp [hnff]), hFe]
              have hN3 : best3G.nextAction = best3F.nextAction := by
                rw [hbest3G, hbest3F]
                show best2G.nextAction = best2F.nextAction
                rw [hbest2G, hbest2F, bestReplace_nextAction,
                  bestReplace_nextAction, hdG, hdF,
                  if_neg (by simp [heq]), if_neg (by simp [hnff])]
                exact hNa
              refine ⟨Or.inr (Or.inr ⟨gv, hG3, hF3, hN3, hagv, hgvb,
                ?_⟩), gv, hG3⟩
              rw [max_eq_left (heq ▸ hgvac), hacm]
      obtain ⟨hinv2, w3, hw3⟩ := hstep
      obtain ⟨hfG, hfF, hout⟩ := iht (i + 1) (max ac gi) best3G best3F
        incs2 stDOn stDOff hteT hrest hmle hDpred hDbpt hinv2
      refine ⟨hfG, hfF, ?_⟩
      rcases hout with ⟨hre, hGn, -⟩ | h | h | h
      · rw [hre] at hGn
        simp only [childLoop] at hGn
        rw [hw3] at hGn
        cases hGn
      · exact Or.inr (Or.inl h)
      · exact Or.inr (Or.inr (Or.inl h))
      · exact Or.inr (Or.inr (Or.inr h))

end ChessAlgo

namespace ChessAlgo

variable {B M : Type}

theorem childLoopTriMin [DecidableEq B] (r : Rules B M) (t : Nat → Bool)
    (mOn mOff : Nat)
    (hABon : moduleEnabled mOn ALPHA_BETA = true)
    (hABoff : moduleEnabled mOff ALPHA_BETA = false)
    (hInc : moduleEnabled mOn TAPERED_INCREMENTAL_PESTO_PSQT =
      moduleEnabled mOff TAPERED_INCREMENTAL_PESTO_PSQT)
    (hSE : moduleEnabled mOn SEARCH_EXTENSIONS =
      moduleEnabled mOff SEARCH_EXTENSIONS)
    (fuel : Nat) (ih : TriHolds r t mOn mOff fuel)
    (board : B) (depth : Nat) (original : Bool) (numExtensions n : Nat)
    (hdepth : 1 ≤ depth) (hfuel : depth + 4 ≤ fuel + numExtensions)
    (hext : numExtensions ≤ 4) (a0 b0 : ℚ) (ha0b : a0 ≤ b0) :
    ∀ (l : List (M × B × Option (TranspositionEntry M))) (i : Nat)
      (bc : ℚ) (bestG bestF : Evaluation M) (incs : ℚ × ℚ)
      (stOn stOff : RunSt B M),
      (∀ c ∈ l, c.2.2 = (none : Option (TranspositionEntry M))) →
      i + l.length ≤ n →
      a0 ≤ bc →
      stOn.prediction = stOff.prediction →
      stOn.boardPlayedTimes = stOff.boardPlayedTimes →
      RInvMin a0 b0 bc bestG bestF →
      (childLoop ⟨r, mOn, t⟩ (nodeEvalRec ⟨r, mOn, t⟩ fuel) board depth
        false original false numExtensions n l i a0 bc bestG incs
        stOn).1.2 = false ∧
      (childLoop ⟨r, mOff, t⟩ (nodeEvalRec ⟨r, mOff, t⟩ fuel) board depth
        false original false numExtensions n l i f32MIN f32MAX bestF incs
        stOff).1.2 = false ∧
      ROutC a0 b0 l
        (childLoop ⟨r, mOn, t⟩ (nodeEvalRec ⟨r, mOn, t⟩ fuel) board depth
          false original false numExtensions n l i a0 bc bestG incs
          stOn).1.1
        (childLoop ⟨r, mOff, t⟩ (nodeEvalRec ⟨r, mOff, t⟩ fuel) board depth
          false original false numExtensions n l i f32MIN f32MAX bestF incs
          stOff).1.1 := by
  intro l
  induction l with
  | nil =>
    intro i bc bestG bestF incs stOn stOff hte hn hacb hpred hbpt hinv
    refine ⟨rfl, rfl, ?_⟩
    rcases hinv with ⟨hG, hF, -⟩ | ⟨gv, fv, h1, h2, h3, h4, -⟩ |
      ⟨gv, h1, h2, h3, h4, h5, -⟩
    · exact Or.inl ⟨rfl, hG, hF⟩
    · exact Or.inr (Or.inr (Or.inr ⟨gv, fv, h1, h2, h3, h4⟩))
    · exact Or.inr (Or.inr (Or.inl ⟨gv, h1, h2, h3, h4, h5⟩))
  | cons c rest iht =>
    obtain ⟨cm, nb, te⟩ := c
    intro i bc bestG bestF incs stOn stOff hte hn hacb hpred hbpt hinv
    have hteH : te = none := hte (cm, nb, te) (List.mem_cons_self _ _)
    subst hteH
    have hteT : ∀ c ∈ rest, c.2.2 =
        (none : Option (TranspositionEntry M)) :=
      fun c hc => hte c (List.mem_cons.mpr (Or.inr hc))
    have hiLt : i < n := by
      simp only [List.length_cons] at hn
      omega
    have hrest : (i + 1) + rest.length ≤ n := by
      simp only [List.length_cons] at hn
      omega
    rw [childLoop_cons_noDeadline (⟨r, mOn, t⟩ : Ctx B M)
        (nodeEvalRec ⟨r, mOn, t⟩ fuel) board depth false original
        numExtensions n cm nb none rest i a0 bc bestG incs stOn hiLt,
      childLoop_cons_noDeadline (⟨r, mOff, t⟩ : Ctx B M)
        (nodeEvalRec ⟨r, mOff, t⟩ fuel) board depth false original
        numExtensions n cm nb none rest i f32MIN f32MAX bestF incs stOff
        hiLt]
    dsimp only
    rw [← hSE]
    simp only [hABon, hABoff, Bool.false_eq_true, if_false, if_true,
      childEvaluate]
    rw [← incsUpdate_congr r t mOn mOff hInc board cm incs.1 incs.2]
    set e := searchExtensionsCalculate numExtensions n (r.checkersCount nb)
      (moduleEnabled mOn SEARCH_EXTENSIONS) with he
    set stCOn := pushExt board cm nb numExtensions e (bumpMax depth stOn)
      with hstCOn
    set stCOff := pushExt board cm nb numExtensions e (bumpMax depth stOff)
      with hstCOff
    set st1On : RunSt B M := { stCOn with
      prediction := upd stCOn.prediction nb (stCOn.prediction nb + 1) }
      with hst1On
    set st1Off : RunSt B M := { stCOff with
      prediction := upd stCOff.prediction nb (stCOff.prediction nb + 1) }
      with hst1Off
    set EOn := nodeEvalRec (⟨r, mOn, t⟩ : Ctx B M) fuel nb (depth - 1 + e)
      a0 bc false false (numExtensions + e) incs.1 incs.2 st1On with hEOn
    set EOff := nodeEvalRec (⟨r, mOff, t⟩ : Ctx B M) fuel nb
      (depth - 1 + e) f32MIN f32MAX false false (numExtensions + e) incs.1
      incs.2 st1Off with hEOff
    set best2G := bestReplace (⟨r, mOn, t⟩ : Ctx B M) false original cm
      bestG EOn.1 with hbest2G
    set best2F := bestReplace (⟨r, mOff, t⟩ : Ctx B M) false original cm
      bestF EOff.1 with hbest2F
    set incs2 := incsUpdate (⟨r, mOn, t⟩ : Ctx B M) board cm incs.1
      incs.2 with hincs2
    set best3G : Evaluation M := { best2G with
      whiteIncrementalPsqtEval := some incs2.1,
      blackIncrementalPsqtEval := some incs2.2 } with hbest3G
    set best3F : Evaluation M := { best2F with
      whiteIncrementalPsqtEval := some incs2.1,
      blackIncrementalPsqtEval := some incs2.2 } with hbest3F
    set stDOn := bumpNodes { EOn.2 with
      prediction := upd EOn.2.prediction nb (EOn.2.prediction nb - 1) }
      with hstDOn
    set stDOff := bumpNodes { EOff.2 with
      prediction := upd EOff.2.prediction nb (EOff.2.prediction nb - 1) }
      with hstDOff
    have he01 : e = 0 ∨ e = 1 := by
      rw [he]
      exact searchExtensionsCalculate_le_one numExtensions n
        (r.checkersCount nb) (moduleEnabled mOn SEARCH_EXTENSIONS)
    have hd5 : (depth - 1 + e) + 5 ≤ fuel + (numExtensions + e) := by
      omega
    have hx4 : numExtensions + e ≤ 4 := by
      rcases he01 with h0 | h1
      · omega
      · have := (searchExtensionsCalculate_eq_one_iff numExtensions n
          (r.checkersCount nb) (moduleEnabled mOn SEARCH_EXTENSIONS)).mp
          (by rw [← he]; exact h1)
        omega
    have hCpred : stCOn.prediction = stCOff.prediction := by
      rw [hstCOn, hstCOff]
      show (bumpMax depth stOn).prediction = (bumpMax depth stOff).prediction
      rw [bumpMax_prediction, bumpMax_prediction, hpred]
    have hCbpt : stCOn.boardPlayedTimes = stCOff.boardPlayedTimes := by
      rw [hstCOn, hstCOff]
      show (bumpMax depth stOn).boardPlayedTimes =
        (bumpMax depth stOff).boardPlayedTimes
      rw [bumpMax_boardPlayedTimes, bumpMax_boardPlayedTimes, hbpt]
    have h1pred : st1On.prediction = st1Off.prediction := by
      rw [hst1On, hst1Off]
      show upd stCOn.prediction nb (stCOn.prediction nb + 1) =
        upd stCOff.prediction nb (stCOff.prediction nb + 1)
      rw [hCpred]
    have h1bpt : st1On.boardPlayedTimes = st1Off.boardPlayedTimes := by
      rw [hst1On, hst1Off]
      show stCOn.boardPlayedTimes = stCOff.boardPlayedTimes
      exact hCbpt
    obtain ⟨gi, fi, hgi, hfi, hlo, hhi, hmid⟩ := ih nb (depth - 1 + e) a0
      bc false (numExtensions + e) incs.1 incs.2 st1On st1Off hd5 hx4 hacb
      h1pred h1bpt
    rw [← hEOn] at hgi hmid
    rw [← hEOff] at hfi hmid
    have hResOn := childPredRestore (⟨r, mOn, t⟩ : Ctx B M) fuel nb
      (depth - 1 + e) a0 bc false false (numExtensions + e) incs.1 incs.2
      stCOn
    rw [← hst1On, ← hEOn] at hResOn
    have hResOff := childPredRestore (⟨r, mOff, t⟩ : Ctx B M) fuel nb
      (depth - 1 + e) f32MIN f32MAX false false (numExtensions + e) incs.1
      incs.2 stCOff
    rw [← hst1Off, ← hEOff] at hResOff
    have hDpred : stDOn.prediction = stDOff.prediction := by
      rw [hstDOn, hstDOff]
      show upd EOn.2.prediction nb (EOn.2.prediction nb - 1) =
        upd EOff.2.prediction nb (EOff.2.prediction nb - 1)
      rw [hResOn.1, hResOff.1, hCpred]
    have hDbpt : stDOn.boardPlayedTimes = stDOff.boardPlayedTimes := by
      rw [hstDOn, hstDOff]
      show EOn.2.boardPlayedTimes = EOff.2.boardPlayedTimes
      rw [hResOn.2, hResOff.2, hCbpt]
    rw [alphaBetaUpdate_false EOn.1 gi a0 bc hgi]
    dsimp only
    by_cases hbr : a0 > min bc gi
    · -- alpha-beta break at this child
      rw [if_pos hbr]
      have hgia : gi < a0 := by
        rcases min_lt_iff.mp hbr with h | h
        · exact absurd h (not_lt.mpr hacb)
        · exact h
      have hfigi : fi ≤ gi := hlo hgia
      have hrepG : newEvalIsBetter false bestG EOn.1 = true := by
        rcases hinv with ⟨hGn, -, -⟩ | ⟨gv, fv, hGe, -, hgvb, -, -⟩ |
          ⟨gv, hGe, -, -, hagv, -, -⟩
        · exact newEvalIsBetter_of_none false bestG EOn.1 gi hGn hgi
        · rw [newEvalIsBetter_some_min bestG EOn.1 gv gi hGe hgi]
          exact decide_eq_true (by linarith)
        · rw [newEvalIsBetter_some_min bestG EOn.1 gv gi hGe hgi]
          exact decide_eq_true (by linarith)
      have hrepF : newEvalIsBetter false bestF EOff.1 = true := by
        rcases hinv with ⟨-, hFn, -⟩ | ⟨gv, fv, -, hFe, hgvb, hgvfv, -⟩ |
          ⟨gv, -, hFe, -, hagv, -, -⟩
        · exact newEvalIsBetter_of_none false bestF EOff.1 fi hFn hfi
        · rw [newEvalIsBetter_some_min bestF EOff.1 fv fi hFe hfi]
          exact decide_eq_true (by linarith)
        · rw [newEvalIsBetter_some_min bestF EOff.1 gv fi hFe hfi]
          exact decide_eq_true (by linarith)
      have hg2 : best2G.eval = some gi := by
        rw [hbest2G, bestReplace_eval, if_pos hrepG, hgi]
      have hf3 : best3F.eval = some fi := by
        rw [hbest3F]
        show best2F.eval = some fi
        rw [hbest2F, bestReplace_eval, if_pos hrepF, hfi]
      obtain ⟨hflagF, hmonoF⟩ := childLoop_noAB_mono
        (⟨r, mOff, t⟩ : Ctx B M) hABoff (nodeEvalRec ⟨r, mOff, t⟩ fuel)
        board depth false original numExtensions n rest (i + 1) f32MIN
        f32MAX best3F incs2 stDOff hrest
      obtain ⟨fv', hfv', -, hdown⟩ := hmonoF fi hf3
      exact ⟨rfl, hflagF, Or.inr (Or.inl ⟨gi, fv', hg2, hfv', hgia,
        le_trans (hdown rfl) hfigi⟩)⟩
    · -- no break: recurse on the remaining children
      rw [if_neg hbr]
      have hmle : a0 ≤ min bc gi := not_lt.mp hbr
      have hgia0 : a0 ≤ gi := le_trans hmle (min_le_right bc gi)
      have hstep : RInvMin a0 b0 (min bc gi) best3G best3F ∧
          ∃ w, best3G.eval = some w := by
        rcases hinv with ⟨hGn, hFn, hbcb⟩ |
          ⟨gv, fv, hGe, hFe, hgvb, hgvfv, hbcb⟩ |
          ⟨gv, hGe, hFe, hNa, hagv, hgvb, hbcm⟩
        · -- first scored child
          subst hbcb
          have hrepG := newEvalIsBetter_of_none false bestG EOn.1 gi hGn
            hgi
          have hrepF := newEvalIsBetter_of_none false bestF EOff.1 fi hFn
            hfi
          have hG3 : best3G.eval = some gi := by
            rw [hbest3G]
            show best2G.eval = some gi
            rw [hbest2G, bestReplace_eval, if_pos hrepG, hgi]
          have hF3 : best3F.eval = some fi := by
            rw [hbest3F]
            show best2F.eval = some fi
            rw [hbest2F, bestReplace_eval, if_pos hrepF, hfi]
          by_cases hreg : bc < gi
          · exact ⟨Or.inr (Or.inl ⟨gi, fi, hG3, hF3, hreg, hhi hreg,
              min_eq_left (le_of_lt hreg)⟩), gi, hG3⟩
          · have hgibc : gi ≤ bc := not_lt.mp hreg
            obtain ⟨hgifi, -⟩ := hmid hgia0 hgibc
            have hN3 : best3G.nextAction = best3F.nextAction := by
              rw [hbest3G, hbest3F]
              show best2G.nextAction = best2F.nextAction
              rw [hbest2G, hbest2F, bestReplace_nextAction,
                bestReplace_nextAction, if_pos hrepG, if_pos hrepF]
            refine ⟨Or.inr (Or.inr ⟨gi, hG3, ?_, hN3, hgia0, hgibc,
              rfl⟩), gi, hG3⟩
            rw [hgifi]
            exact hF3
        · -- all children so far failed high
          subst hbcb
          have hdG := newEvalIsBetter_some_min bestG EOn.1 gv gi hGe hgi
          have hdF := newEvalIsBetter_some_min bestF EOff.1 fv fi hFe hfi
          by_cases hreg : bc < gi
          · -- stays high
            have hgifi := hhi hreg
            have hmina : min bc gi = bc := min_eq_left (le_of_lt hreg)
            by_cases hgg : gi < gv
            · have hG3 : best3G.eval = some gi := by
                rw [hbest3G]
                show best2G.eval = some gi
                rw [hbest2G, bestReplace_eval, hdG,
                  if_pos (decide_eq_true hgg), hgi]
              by_cases hff : fi < fv
              · have hF3 : best3F.eval = some fi := by
                  rw [hbest3F]
                  show best2F.eval = some fi
                  rw [hbest2F, bestReplace_eval, hdF,
                    if_pos (decide_eq_true hff), hfi]
                exact ⟨Or.inr (Or.inl ⟨gi, fi, hG3, hF3, hreg, hgifi,
                  hmina⟩), gi, hG3⟩
              · have hF3 : best3F.eval = some fv := by
                  rw [hbest3F]
                  show best2F.eval = some fv
                  rw [hbest2F, bestReplace_eval, hdF,
                    if_neg (by simp [hff]), hFe]
                refine ⟨Or.inr (Or.inl ⟨gi, fv, hG3, hF3, hreg, ?_,
                  hmina⟩), gi, hG3⟩
                have := not_lt.mp hff
                linarith
            · have hG3 : best3G.eval = some gv := by
                rw [hbest3G]
                show best2G.eval = some gv
                rw [hbest2G, bestReplace_eval, hdG,
                  if_neg (by simp [hgg]), hGe]
              by_cases hff : fi < fv
              · have hF3 : best3F.eval = some fi := by
                  rw [hbest3F]
                  show best2F.eval = some fi
                  rw [hbest2F, bestReplace_eval, hdF,
                    if_pos (decide_eq_true hff), hfi]
                refine ⟨Or.inr (Or.inl ⟨gv, fi, hG3, hF3, hgvb, ?_,
                  hmina⟩), gv, hG3⟩
                have := not_lt.mp hgg
                linarith
              · have hF3 : best3F.eval = some fv := by
                  rw [hbest3F]
                  show best2F.eval = some fv
                  rw [hbest2F, bestReplace_eval, hdF,
                    if_neg (by simp [hff]), hFe]
                exact ⟨Or.inr (Or.inl ⟨gv, fv, hG3, hF3, hgvb, hgvfv,
                  hmina⟩), gv, hG3⟩
          · -- enters the window
            have hgibc : gi ≤ bc := not_lt.mp hreg
            obtain ⟨hgifi, -⟩ := hmid hgia0 hgibc
            have hgg : gi < gv := lt_of_le_of_lt hgibc hgvb
            have hff : fi < fv := by
              rw [← hgifi]
              exact lt_of_lt_of_le hgg hgvfv
            have hG3 : best3G.eval = some gi := by
              rw [hbest3G]
              show best2G.eval = some gi
              rw [hbest2G, bestReplace_eval, hdG,
                if_pos (decide_eq_true hgg), hgi]
            have hF3 : best3F.eval = some fi := by
              rw [hbest3F]
              show best2F.eval = some fi
              rw [hbest2F, bestReplace_eval, hdF,
                if_pos (decide_eq_true hff), hfi]
            have hN3 : best3G.nextAction = best3F.nextAction := by
              rw [hbest3G, hbest3F]
              show best2G.nextAction = best2F.nextAction
              rw [hbest2G, hbest2F, bestReplace_nextAction,
                bestReplace_nextAction, hdG, hdF,
                if_pos (decide_eq_true hgg), if_pos (decide_eq_true hff)]
            refine ⟨Or.inr (Or.inr ⟨gi, hG3, ?_, hN3, hgia0, hgibc,
              rfl⟩), gi, hG3⟩
            rw [hgifi]
            exact hF3
        · -- some child already scored inside the window
          have hbcgv : bc ≤ gv := by
            rw [hbcm]
            exact min_le_right b0 gv
          have hdG := newEvalIsBetter_some_min bestG EOn.1 gv gi hGe hgi
          have hdF := newEvalIsBetter_some_min bestF EOff.1 gv fi hFe hfi
          by_cases hreg : bc < gi
          · -- keep the window best
            have hbcgv2 : bc = gv := by
              rw [hbcm]
              exact min_eq_right hgvb
            have hgvgi : gv < gi := by
              rw [← hbcgv2]
              exact hreg
            have hgifi := hhi hreg
            have hG3 : best3G.eval = some gv := by
              rw [hbest3G]
              show best2G.eval = some gv
              rw [hbest2G, bestReplace_eval, hdG,
                if_neg (by simp; linarith), hGe]
            have hF3 : best3F.eval = some gv := by
              rw [hbest3F]
              show best2F.eval = some gv
              rw [hbest2F, bestReplace_eval, hdF,
                if_neg (by simp; linarith), hFe]
            have hN3 : best3G.nextAction = best3F.nextAction := by
              rw [hbest3G, hbest3F]
              show best2G.nextAction = best2F.nextAction
              rw [hbest2G, hbest2F, bestReplace_nextAction,
                bestReplace_nextAction, hdG, hdF,
                if_neg (by simp; linarith), if_neg (by simp; linarith)]
              exact hNa
            refine ⟨Or.inr (Or.inr ⟨gv, hG3, hF3, hN3, hagv, hgvb,
              ?_⟩), gv, hG3⟩
            rw [min_eq_left (le_of_lt hreg), hbcm]
          · -- child at least as good as the window best
            have hgibc : gi ≤ bc := not_lt.mp hreg
            have hgvgi : gi ≤ gv := le_trans hgibc hbcgv
            obtain ⟨hgifi, -⟩ := hmid hgia0 hgibc
            rcases lt_or_eq_of_le hgvgi with hlt | heq
            · -- strict improvement: both replace
              have hff : fi < gv := by
                rw [← hgifi]
                exact hlt
              have hG3 : best3G.eval = some gi := by
                rw [hbest3G]
                show best2G.eval = some gi
                rw [hbest2G, bestReplace_eval, hdG,
                  if_pos (decide_eq_true hlt), hgi]
              have hF3 : best3F.eval = some fi := by
                rw [hbest3F]
                show best2F.eval = some fi
                rw [hbest2F, bestReplace_eval, hdF,
                  if_pos (decide_eq_true hff), hfi]
              have hN3 : best3G.nextAction = best3F.nextAction := by
                rw [hbest3G, hbest3F]
                show best2G.nextAction = best2F.nextAction
                rw [hbest2G, hbest2F, bestReplace_nextAction,
                  bestReplace_nextAction, hdG, hdF,
                  if_pos (decide_eq_true hlt),
                  if_pos (decide_eq_true hff)]
              refine ⟨Or.inr (Or.inr ⟨gi, hG3, ?_, hN3, hgia0,
                le_trans hgvgi hgvb, ?_⟩), gi, hG3⟩
              · rw [hgifi]
                exact hF3
              · rw [min_eq_right hgibc,
                  min_eq_right (le_trans hgvgi hgvb)]
            · -- tie: first-found best is kept in both runs
              have hnff : ¬ fi < gv := by
                rw [← hgifi, heq]
                exact lt_irrefl gv
              have hG3 : best3G.eval = some gv := by
                rw [hbest3G]
                show best2G.eval = some gv
                rw [hbest2G, bestReplace_eval, hdG,
                  if_neg (by simp [heq]), hGe]
              have hF3 : best3F.eval = some gv := by
                rw [hbest3F]
                show best2F.eval = some gv
                rw [hbest2F, bestReplace_eval, hdF,
                  if_neg (by simp [hnff]), hFe]
              have hN3 : best3G.nextAction = best3F.nextAction := by
                rw [hbest3G, hbest3F]
                show best2G.nextAction = best2F.nextAction
                rw [hbest2G, hbest2F, bestReplace_nextAction,
                  bestReplace_nextAction, hdG, hdF,
                  if_neg (by simp [heq]), if_neg (by simp [hnff])]
                exact hNa
              refine ⟨Or.inr (Or.inr ⟨gv, hG3, hF3, hN3, hagv, hgvb,
                ?_⟩), gv, hG3⟩
              rw [min_eq_left (by rw [heq]; exact hbcgv), hbcm]
      obtain ⟨hinv2, w3, hw3⟩ := hstep
      obtain ⟨hfG, hfF, hout⟩ := iht (i + 1) (min bc gi) best3G best3F
        incs2 stDOn stDOff hteT hrest hmle hDpred hDbpt hinv2
      refine ⟨hfG, hfF, ?_⟩
      rcases hout with ⟨hre, hGn, -⟩ | h | h | h
      · rw [hre] at hGn
        simp only [childLoop] at hGn
        rw [hw3] at hGn
        cases hGn
      · exact Or.inr (Or.inl h)
      · exact Or.inr (Or.inr (Or.inl h))
      · exact Or.inr (Or.inr (Or.inr h))

end ChessAlgo

namespace ChessAlgo

variable {B M : Type}

end ChessAlgo
namespace ChessAlgo

variable {B M : Type}

/-- With no deadline and a non-early loop exit, the interior-node result of
`node_eval_recursive` has the score and move of the per-child loop: the
transposition insert touches only the state and the final `debug_data`
rewrite touches only the analyzer events. -/
theorem nodeEvalRec_interior [DecidableEq B] (ctx : Ctx B M) (fuel : Nat)
    (board : B) (depth : Nat) (alpha beta : ℚ) (original : Bool)
    (numExtensions : Nat) (wInc bInc : ℚ) (st : RunSt B M)
    (hd0 : ¬ depth = 0)
    (hleg : ¬ (ctx.rules.legalMoves board).length = 0)
    (l : List (M × B × Option (TranspositionEntry M)))
    (hl : stableSortBy (fun c1 c2 =>
        if ctx.rules.sideToMove board = Color.white then
          decide (childKey c2 ≤ childKey c1)
        else decide (childKey c1 ≤ childKey c2))
      ((ctx.rules.legalMoves board).map (fun cm =>
        (cm, ctx.rules.makeMove board cm,
          if moduleEnabled ctx.modules TRANSPOSITION_TABLE then
            st.tt (ctx.rules.makeMove board cm)
          else none))) = l)
    (hflag : (childLoop ctx (nodeEvalRec ctx fuel) board depth
      (decide (ctx.rules.sideToMove board = Color.white)) original false
      numExtensions (ctx.rules.legalMoves board).length l 0 alpha beta
      { debugData := none, eval := none, nextAction := none,
        whiteIncrementalPsqtEval := none, blackIncrementalPsqtEval := none }
      (wInc, bInc) st).1.2 = false) :
    (nodeEvalRec ctx (fuel + 1) board depth alpha beta original false
      numExtensions wInc bInc st).1.eval =
      (childLoop ctx (nodeEvalRec ctx fuel) board depth
        (decide (ctx.rules.sideToMove board = Color.white)) original false
        numExtensions (ctx.rules.legalMoves board).length l 0 alpha beta
        { debugData := none, eval := none, nextAction := none,
          whiteIncrementalPsqtEval := none,
          blackIncrementalPsqtEval := none }
        (wInc, bInc) st).1.1.eval ∧
    (nodeEvalRec ctx (fuel + 1) board depth alpha beta original false
      numExtensions wInc bInc st).1.nextAction =
      (childLoop ctx (nodeEvalRec ctx fuel) board depth
        (decide (ctx.rules.sideToMove board = Color.white)) original false
        numExtensions (ctx.rules.legalMoves board).length l 0 alpha beta
        { debugData := none, eval := none, nextAction := none,
          whiteIncrementalPsqtEval := none,
          blackIncrementalPsqtEval := none }
        (wInc, bInc) st).1.1.nextAction := by
  simp only [nodeEvalRec]
  rw [if_neg hd0, if_neg hleg, hl]
  simp only [hflag, Bool.false_eq_true, if_false]
  constructor
  · split
    · rfl
    · rfl
    · rfl
  · split
    · rfl
    · rfl
    · rfl

end ChessAlgo

namespace ChessAlgo

variable {B M : Type}

/-- The fail-soft simulation holds at every fuel: an alpha-beta search and a
plain-minimax search (transposition table disabled, masks agreeing on the
incremental accumulator and on search extensions, no deadline) stand in the
window trichotomy at every node. -/
theorem triAll [DecidableEq B] (r : Rules B M) (t : Nat → Bool)
    (mOn mOff : Nat)
    (hABon : moduleEnabled mOn ALPHA_BETA = true)
    (hABoff : moduleEnabled mOff ALPHA_BETA = false)
    (hTTon : moduleEnabled mOn TRANSPOSITION_TABLE = false)
    (hTToff : moduleEnabled mOff TRANSPOSITION_TABLE = false)
    (hInc : moduleEnabled mOn TAPERED_INCREMENTAL_PESTO_PSQT =
      moduleEnabled mOff TAPERED_INCREMENTAL_PESTO_PSQT)
    (hSE : moduleEnabled mOn SEARCH_EXTENSIONS =
      moduleEnabled mOff SEARCH_EXTENSIONS) :
    ∀ fuel, TriHolds r t mOn mOff fuel := by
  intro fuel
  induction fuel with
  | zero =>
    intro board depth alpha beta original numExtensions wInc bInc stOn
      stOff hfuel hext hab hpred hbpt
    exfalso
    omega
  | succ fuel ih =>
    intro board depth alpha beta original numExtensions wInc bInc stOn
      stOff hfuel hext hab hpred hbpt
    by_cases hd0 : depth = 0
    · -- leaf: identical static evaluations
      subst hd0
      refine ⟨r.leafEval board stOn.boardPlayedTimes stOn.prediction +
          (if r.sideToMove board = Color.black then bInc else wInc),
        r.leafEval board stOn.boardPlayedTimes stOn.prediction +
          (if r.sideToMove board = Color.black then bInc else wInc),
        rfl, ?_, fun _ => le_refl _, fun _ => le_refl _,
        fun _ _ => ⟨rfl, rfl⟩⟩
      rw [hpred, hbpt]
      rfl
    · have hdepth : 1 ≤ depth := Nat.one_le_iff_ne_zero.mpr hd0
      by_cases hleg : (r.legalMoves board).length = 0
      · -- no legal moves: both runs return the (overwritten) sentinel
        have hsent : ∀ (mm : Nat) (a bq : ℚ) (st : RunSt B M),
            (nodeEvalRec (⟨r, mm, t⟩ : Ctx B M) (fuel + 1) board depth a bq
              original false numExtensions wInc bInc st).1.eval =
              some (if r.sideToMove board = Color.white then f32MIN
                else f32MAX) ∧
            (nodeEvalRec (⟨r, mm, t⟩ : Ctx B M) (fuel + 1) board depth a bq
              original false numExtensions wInc bInc st).1.nextAction =
              none := by
          intro mm a bq st
          constructor
          · simp only [nodeEvalRec]
            rw [if_neg hd0, if_pos hleg]
          · simp only [nodeEvalRec]
            rw [if_neg hd0, if_pos hleg]
            by_cases hck : r.checkersCount board = 0
            · rw [if_pos hck]
            · rw [if_neg hck]
        obtain ⟨hOe, hOn2⟩ := hsent mOn alpha beta stOn
        obtain ⟨hFe, hFn2⟩ := hsent mOff f32MIN f32MAX stOff
        refine ⟨_, _, hOe, hFe, fun _ => le_refl _, fun _ => le_refl _,
          fun _ _ => ⟨rfl, ?_⟩⟩
        rw [hOn2, hFn2]
      · -- interior node: compare the two per-child loops
        set L := (r.legalMoves board).map (fun cm =>
          (cm, r.makeMove board cm,
            (none : Option (TranspositionEntry M)))) with hL
        have hLte : ∀ c ∈ L, c.2.2 =
            (none : Option (TranspositionEntry M)) := by
          intro c hc
          rw [hL] at hc
          obtain ⟨cm, -, rfl⟩ := List.mem_map.mp hc
          rfl
        have hcmp : ∀ x ∈ L, ∀ y ∈ L, (fun c1 c2 =>
            if r.sideToMove board = Color.white then
              decide (childKey c2 ≤ childKey c1)
            else decide (childKey c1 ≤ childKey c2)) y x = true := by
          intro x hx y hy
          show (if r.sideToMove board = Color.white then
              decide (childKey x ≤ childKey y)
            else decide (childKey y ≤ childKey x)) = true
          rw [childKey_none x (hLte x hx), childKey_none y (hLte y hy)]
          split
          · exact decide_eq_true (le_refl (0 : ℚ))
          · exact decide_eq_true (le_refl (0 : ℚ))
        have hsortL := stableSortBy_all _ L hcmp
        have hmapOn : (r.legalMoves board).map (fun cm =>
            (cm, r.makeMove board cm,
              if moduleEnabled mOn TRANSPOSITION_TABLE then
                stOn.tt (r.makeMove board cm)
              else none)) = L := by
          simp only [hTTon, Bool.false_eq_true, if_false]
        have hmapOff : (r.legalMoves board).map (fun cm =>
            (cm, r.makeMove board cm,
              if moduleEnabled mOff TRANSPOSITION_TABLE then
                stOff.tt (r.makeMove board cm)
              else none)) = L := by
          simp only [hTToff, Bool.false_eq_true, if_false]
        have hsortOn : stableSortBy (fun c1 c2 =>
            if r.sideToMove board = Color.white then
              decide (childKey c2 ≤ childKey c1)
            else decide (childKey c1 ≤ childKey c2))
            ((r.legalMoves board).map (fun cm =>
              (cm, r.makeMove board cm,
                if moduleEnabled mOn TRANSPOSITION_TABLE then
                  stOn.tt (r.makeMove board cm)
                else none))) = L := by
          rw [hmapOn]
          exact hsortL
        have hsortOff : stableSortBy (fun c1 c2 =>
            if r.sideToMove board = Color.white then
              decide (childKey c2 ≤ childKey c1)
            else decide (childKey c1 ≤ childKey c2))
            ((r.legalMoves board).map (fun cm =>
              (cm, r.makeMove board cm,
                if moduleEnabled mOff TRANSPOSITION_TABLE then
                  stOff.tt (r.makeMove board cm)
                else none))) = L := by
          rw [hmapOff]
          exact hsortL
        have hn0 : 0 + L.length ≤ (r.legalMoves board).length := by
          rw [hL]
          simp
        have hfuelm : depth + 4 ≤ fuel + numExtensions := by omega
        have hLnil : L = [] → False := by
          intro hnil
          rw [hnil] at hL
          exact hleg (by rw [List.map_eq_nil_iff.mp hL.symm]; rfl)
        cases hside : r.sideToMove board with
        | white =>
          have hmx : decide (r.sideToMove board = Color.white) = true := by
            rw [hside]
            rfl
          have hinv0 : RInvMax alpha beta alpha
              (⟨none, none, none, none, none⟩ : Evaluation M)
              (⟨none, none, none, none, none⟩ : Evaluation M) :=
            Or.inl ⟨rfl, rfl, rfl⟩
          obtain ⟨hfOn, hfOff, hout⟩ := childLoopTriMax r t mOn mOff hABon
            hABoff hInc hSE fuel ih board depth original
            numExtensions ((r.legalMoves board).length) hdepth hfuelm hext
            alpha beta hab L 0 alpha
            (⟨none, none, none, none, none⟩ : Evaluation M)
            (⟨none, none, none, none, none⟩ : Evaluation M)
            (wInc, bInc) stOn stOff hLte hn0 hab hpred hbpt hinv0
          have hcharOn := nodeEvalRec_interior (⟨r, mOn, t⟩ : Ctx B M)
            fuel board depth alpha beta original numExtensions wInc bInc
            stOn hd0 hleg L hsortOn (by dsimp only; rw [hmx]; exact hfOn)
          have hcharOff := nodeEvalRec_interior (⟨r, mOff, t⟩ : Ctx B M)
            fuel board depth f32MIN f32MAX original numExtensions wInc bInc
            stOff hd0 hleg L hsortOff (by dsimp only; rw [hmx]; exact hfOff)
          dsimp only at hcharOn hcharOff
          rw [hmx] at hcharOn hcharOff
          rcases hout with ⟨hnil, -, -⟩ |
            ⟨gv, fv, hGe, hFe, hlt, hle⟩ |
            ⟨gv, hGe, hFe, hNa, h1, h2⟩ |
            ⟨gv, fv, hGe, hFe, hgt, hle⟩
          · exact absurd hnil (fun h => hLnil h)
          · refine ⟨gv, fv, ?_, ?_, fun _ => hle, ?_, ?_⟩
            · rw [hcharOn.1]
              exact hGe
            · rw [hcharOff.1]
              exact hFe
            · intro hk
              exfalso
              linarith
            · intro h1 h2
              exact absurd h1 (not_le.mpr hlt)
          · refine ⟨gv, gv, ?_, ?_, fun _ => le_refl gv,
              fun _ => le_refl gv, fun _ _ => ⟨rfl, ?_⟩⟩
            · rw [hcharOn.1]
              exact hGe
            · rw [hcharOff.1]
              exact hFe
            · rw [hcharOn.2, hcharOff.2]
              exact hNa
          · refine ⟨gv, fv, ?_, ?_, ?_, fun _ => hle, ?_⟩
            · rw [hcharOn.1]
              exact hGe
            · rw [hcharOff.1]
              exact hFe
            · intro hk
              exfalso
              linarith
            · intro h1 h2
              exact absurd h2 (not_le.mpr hgt)
        | black =>
          have hmx : decide (r.sideToMove board = Color.white) = false := by
            rw [hside]
            rfl
          have hinv0 : RInvMin alpha beta beta
              (⟨none, none, none, none, none⟩ : Evaluation M)
              (⟨none, none, none, none, none⟩ : Evaluation M) :=
            Or.inl ⟨rfl, rfl, rfl⟩
          obtain ⟨hfOn, hfOff, hout⟩ := childLoopTriMin r t mOn mOff hABon
            hABoff hInc hSE fuel ih board depth original
            numExtensions ((r.legalMoves board).length) hdepth hfuelm hext
            alpha beta hab L 0 beta
            (⟨none, none, none, none, none⟩ : Evaluation M)
            (⟨none, none, none, none, none⟩ : Evaluation M)
            (wInc, bInc) stOn stOff hLte hn0 hab hpred hbpt hinv0
          have hcharOn := nodeEvalRec_interior (⟨r, mOn, t⟩ : Ctx B M)
            fuel board depth alpha beta original numExtensions wInc bInc
            stOn hd0 hleg L hsortOn (by dsimp only; rw [hmx]; exact hfOn)
          have hcharOff := nodeEvalRec_interior (⟨r, mOff, t⟩ : Ctx B M)
            fuel board depth f32MIN f32MAX original numExtensions wInc bInc
            stOff hd0 hleg L hsortOff (by dsimp only; rw [hmx]; exact hfOff)
          dsimp only at hcharOn hcharOff
          rw [hmx] at hcharOn hcharOff
          rcases hout with ⟨hnil, -, -⟩ |
            ⟨gv, fv, hGe, hFe, hlt, hle⟩ |
            ⟨gv, hGe, hFe, hNa, h1, h2⟩ |
            ⟨gv, fv, hGe, hFe, hgt, hle⟩
          · exact absurd hnil (fun h => hLnil h)
          · refine ⟨gv, fv, ?_, ?_, fun _ => hle, ?_, ?_⟩
            · rw [hcharOn.1]
              exact hGe
            · rw [hcharOff.1]
              exact hFe
            · intro hk
              exfalso
              linarith
            · intro h1 h2
              exact absurd h1 (not_le.mpr hlt)
          · refine ⟨gv, gv, ?_, ?_, fun _ => le_refl gv,
              fun _ => le_refl gv, fun _ _ => ⟨rfl, ?_⟩⟩
            · rw [hcharOn.1]
              exact hGe
            · rw [hcharOff.1]
              exact hFe
            · rw [hcharOn.2, hcharOff.2]
              exact hNa
          · refine ⟨gv, fv, ?_, ?_, ?_, fun _ => hle, ?_⟩
            · rw [hcharOn.1]
              exact hGe
            · rw [hcharOff.1]
              exact hFe
            · intro hk
              exfalso
              linarith
            · intro h1 h2
              exact absurd h2 (not_le.mpr hgt)

end ChessAlgo

namespace ChessAlgo

variable {B M : Type}

/-- With the incremental accumulator disabled and zero accumulators, the
per-child loop only ever stores child scores or keeps the carried best, so
any score it returns stays inside the float range whenever the recursive
calls' scores and the carried best's score do. -/
theorem childLoop_zero_inc_bounds [DecidableEq B] (ctx : Ctx B M)
    (hInc : moduleEnabled ctx.modules TAPERED_INCREMENTAL_PESTO_PSQT = false)
    (recur : B → Nat → ℚ → ℚ → Bool → Bool → Nat → ℚ → ℚ → RunSt B M →
      Evaluation M × RunSt B M)
    (hrec : ∀ (nb : B) (d : Nat) (a bq : ℚ) (o : Bool) (ne : Nat)
      (st : RunSt B M) (v : ℚ),
      (recur nb d a bq o false ne 0 0 st).1.eval = some v →
      f32MIN ≤ v ∧ v ≤ f32MAX)
    (board : B) (depth : Nat) (mx o : Bool) (numExtensions n : Nat) :
    ∀ l : List (M × B × Option (TranspositionEntry M)),
      (∀ c ∈ l, c.2.2 = (none : Option (TranspositionEntry M))) →
      ∀ (i : Nat) (alpha beta : ℚ) (best : Evaluation M) (st : RunSt B M),
      i + l.length ≤ n →
      (∀ w, best.eval = some w → f32MIN ≤ w ∧ w ≤ f32MAX) →
      ∀ v, (childLoop ctx recur board depth mx o false numExtensions n l i
        alpha beta best ((0 : ℚ), (0 : ℚ)) st).1.1.eval = some v →
        f32MIN ≤ v ∧ v ≤ f32MAX := by
  intro l
  induction l with
  | nil =>
    intro hte i alpha beta best st hn hbest v hv
    exact hbest v hv
  | cons c rest ih =>
    obtain ⟨cm, nb, te⟩ := c
    intro hte i alpha beta best st hn hbest v hv
    have hteH : te = none := hte (cm, nb, te) (List.mem_cons_self _ _)
    subst hteH
    have hteT : ∀ c ∈ rest, c.2.2 =
        (none : Option (TranspositionEntry M)) :=
      fun c hc => hte c (List.mem_cons.mpr (Or.inr hc))
    have hiLt : i < n := by
      simp only [List.length_cons] at hn
      omega
    have hrest : (i + 1) + rest.length ≤ n := by
      simp only [List.length_cons] at hn
      omega
    rw [childLoop_cons_noDeadline ctx recur board depth mx o numExtensions
      n cm nb none rest i alpha beta best ((0 : ℚ), (0 : ℚ)) st hiLt] at hv
    simp only [childEvaluate] at hv
    rw [incsUpdate_off ctx board cm ((0 : ℚ), (0 : ℚ)).1
      ((0 : ℚ), (0 : ℚ)).2 hInc] at hv
    dsimp only at hv
    set e := searchExtensionsCalculate numExtensions n
      (ctx.rules.checkersCount nb)
      (moduleEnabled ctx.modules SEARCH_EXTENSIONS) with he
    set stC := pushExt board cm nb numExtensions e (bumpMax depth st)
      with hstC
    set rv := recur nb (depth - 1 + e) alpha beta false false
      (numExtensions + e) 0 0
      { stC with
        prediction := upd stC.prediction nb (stC.prediction nb + 1) }
      with hrv
    have hbest2 : ∀ w, (bestReplace ctx mx o cm best rv.1).eval = some w →
        f32MIN ≤ w ∧ w ≤ f32MAX := by
      intro w hw
      rw [bestReplace_eval] at hw
      by_cases hrep : newEvalIsBetter mx best rv.1 = true
      · rw [if_pos hrep] at hw
        rw [hrv] at hw
        exact hrec nb (depth - 1 + e) alpha beta false
          (numExtensions + e) _ w hw
      · rw [if_neg hrep] at hw
        exact hbest w hw
    have hbest3 : ∀ w, ({ bestReplace ctx mx o cm best rv.1 with
        whiteIncrementalPsqtEval := some (0 : ℚ),
        blackIncrementalPsqtEval := some (0 : ℚ) } :
          Evaluation M).eval = some w →
        f32MIN ≤ w ∧ w ≤ f32MAX := by
      intro w hw
      exact hbest2 w hw
    split at hv
    · -- ALPHA_BETA enabled
      split at hv
      · -- break: the loop returns the replaced best
        exact hbest2 v hv
      · exact ih hteT (i + 1) _ _ _ _ hrest hbest3 v hv
    · exact ih hteT (i + 1) _ _ _ _ hrest hbest3 v hv

end ChessAlgo

namespace ChessAlgo

variable {B M : Type}

/-- With the transposition table and the incremental accumulator disabled,
zero starting accumulators, no deadline, and a static evaluation bounded by
the float sentinels, every score `node_eval_recursive` returns lies between
`f32MIN` and `f32MAX`. -/
theorem nodeEvalRec_zero_inc_bounds [DecidableEq B] (ctx : Ctx B M)
    (hTT : moduleEnabled ctx.modules TRANSPOSITION_TABLE = false)
    (hInc : moduleEnabled ctx.modules TAPERED_INCREMENTAL_PESTO_PSQT = false)
    (hleaf : ∀ (b : B) (f g : B → Nat),
      f32MIN ≤ ctx.rules.leafEval b f g ∧ ctx.rules.leafEval b f g ≤ f32MAX) :
    ∀ (fuel : Nat) (board : B) (depth : Nat) (alpha beta : ℚ)
      (original : Bool) (numExtensions : Nat) (st : RunSt B M) (v : ℚ),
      (nodeEvalRec ctx fuel board depth alpha beta original false
        numExtensions 0 0 st).1.eval = some v →
      f32MIN ≤ v ∧ v ≤ f32MAX := by
  intro fuel
  induction fuel with
  | zero =>
    intro board depth alpha beta original numExtensions st v hv
    simp only [nodeEvalRec] at hv
    cases hv
  | succ fuel ih =>
    intro board depth alpha beta original numExtensions st v hv
    by_cases hd0 : depth = 0
    · subst hd0
      have hv2 : some (ctx.rules.leafEval board st.boardPlayedTimes
          st.prediction +
          (if ctx.rules.sideToMove board = Color.black then (0 : ℚ)
            else 0)) = some v := hv
      rw [ite_self] at hv2
      have hv3 := Option.some.inj hv2
      rw [← hv3, add_zero]
      exact hleaf board _ _
    · by_cases hleg : (ctx.rules.legalMoves board).length = 0
      · simp only [nodeEvalRec] at hv
        rw [if_neg hd0, if_pos hleg] at hv
        dsimp only at hv
        rw [← Option.some.inj hv]
        split
        · exact ⟨le_refl _, f32MIN_le_f32MAX⟩
        · exact ⟨f32MIN_le_f32MAX, le_refl _⟩
      · simp only [nodeEvalRec] at hv
        rw [if_neg hd0, if_neg hleg] at hv
        simp only [hTT, Bool.false_eq_true, if_false] at hv
        have hLte : ∀ c ∈ (ctx.rules.legalMoves board).map (fun cm =>
            (cm, ctx.rules.makeMove board cm,
              (none : Option (TranspositionEntry M)))),
            c.2.2 = (none : Option (TranspositionEntry M)) := by
          intro c hc
          obtain ⟨cm, -, rfl⟩ := List.mem_map.mp hc
          rfl
        have hcmp : ∀ x ∈ (ctx.rules.legalMoves board).map (fun cm =>
            (cm, ctx.rules.makeMove board cm,
              (none : Option (TranspositionEntry M)))),
            ∀ y ∈ (ctx.rules.legalMoves board).map (fun cm =>
              (cm, ctx.rules.makeMove board cm,
                (none : Option (TranspositionEntry M)))),
            (fun c1 c2 =>
              if ctx.rules.sideToMove board = Color.white then
                decide (childKey c2 ≤ childKey c1)
              else decide (childKey c1 ≤ childKey c2)) y x = true := by
          intro x hx y hy
          show (if ctx.rules.sideToMove board = Color.white then
              decide (childKey x ≤ childKey y)
            else decide (childKey y ≤ childKey x)) = true
          rw [childKey_none x (hLte x hx), childKey_none y (hLte y hy)]
          split
          · exact decide_eq_true (le_refl (0 : ℚ))
          · exact decide_eq_true (le_refl (0 : ℚ))
        rw [stableSortBy_all _ _ hcmp] at hv
        have hn0 : 0 + ((ctx.rules.legalMoves board).map (fun cm =>
            (cm, ctx.rules.makeMove board cm,
              (none : Option (TranspositionEntry M))))).length ≤
            (ctx.rules.legalMoves board).length := by
          simp
        have hb0 : ∀ w,
            ((⟨none, none, none, none, none⟩ : Evaluation M)).eval =
              some w → f32MIN ≤ w ∧ w ≤ f32MAX := by
          intro w hw
          cases hw
        have hloop := childLoop_zero_inc_bounds ctx hInc
          (nodeEvalRec ctx fuel)
          (fun nb d a bq o2 ne st2 v2 hv2 =>
            ih nb d a bq o2 ne st2 v2 hv2)
          board depth (decide (ctx.rules.sideToMove board = Color.white))
          original numExtensions ((ctx.rules.legalMoves board).length)
          ((ctx.rules.legalMoves board).map (fun cm =>
            (cm, ctx.rules.makeMove board cm,
              (none : Option (TranspositionEntry M))))) hLte 0 alpha beta
          _ st hn0 hb0
        split at hv
        · exact hloop v hv
        · split at hv
          · exact hloop v hv
          · exact hloop v hv
          · exact hloop v hv

end ChessAlgo

namespace ChessAlgo

/-- Rules for the C5 counterexample: a depth-5 root (board 1) with four
replies A=10, B=11, C=12, D=13.  A, C and the first reply of B are straight
lines to leaves worth 20, 24 and 22; B's second reply transposes into
board 31, a White node whose two lines are worth 23 and 100; D funnels
through 26 and 27 back into board 31 two plies deeper. -/
def c5Rules : Rules Nat Nat :=
  { legalMoves := fun b =>
      if b = 1 then [0, 1, 2, 3]
      else if b = 11 ∨ b = 31 then [0, 1]
      else if b = 17 ∨ b = 21 ∨ b = 25 ∨ b = 34 ∨ b = 37 then []
      else [0],
    makeMove := fun b m =>
      if b = 1 then 10 + m
      else if b = 11 then (if m = 0 then 18 else 31)
      else if b = 31 then (if m = 0 then 32 else 35)
      else if b = 10 then 14
      else if b = 14 then 15
      else if b = 15 then 16
      else if b = 16 then 17
      else if b = 18 then 19
      else if b = 19 then 20
      else if b = 20 then 21
      else if b = 32 then 33
      else if b = 33 then 34
      else if b = 35 then 36
      else if b = 36 then 37
      else if b = 12 then 22
      else if b = 22 then 23
      else if b = 23 then 24
      else if b = 24 then 25
      else if b = 13 then 26
      else if b = 26 then 27
      else if b = 27 then 31
      else 0,
    sideToMove := fun b =>
      if b = 10 ∨ b = 11 ∨ b = 12 ∨ b = 13 ∨ b = 15 ∨ b = 19 ∨ b = 32 ∨
          b = 35 ∨ b = 23 ∨ b = 27 then Color.black
      else Color.white,
    checkersCount := fun _ => 0,
    status := fun _ => BoardStatus.ongoing,
    leafEval := fun b _ _ =>
      if b = 17 then 20
      else if b = 21 then 22
      else if b = 34 then 23
      else if b = 37 then 100
      else if b = 25 then 24
      else 0,
    incUpdate := fun _ _ p => p }

/-- Alpha-beta and transposition table both on. -/
def c5CtxOn : Ctx Nat Nat :=
  { rules := c5Rules, modules := ALPHA_BETA + TRANSPOSITION_TABLE,
    tick := fun _ => false }

/-- Transposition table on, alpha-beta off: the claim's baseline. -/
def c5CtxOff : Ctx Nat Nat :=
  { rules := c5Rules, modules := TRANSPOSITION_TABLE, tick := fun _ => false }

/-- Every module off: plain minimax, used to certify the unique best move. -/
def c5CtxPlain : Ctx Nat Nat :=
  { rules := c5Rules, modules := 0, tick := fun _ => false }

end ChessAlgo

namespace ChessAlgo

variable {B M : Type}

/-- C5 (amended): with the TRANSPOSITION_TABLE module disabled, the search
with ALPHA_BETA enabled returns, from the engine's full root window, exactly
the score and the selected move of the search with ALPHA_BETA disabled
(plain minimax) at every position and depth — ties are broken identically,
so the claim's unique-best-move proviso is not even needed.  The masks may
differ in any module the score does not depend on and need only agree on
SEARCH_EXTENSIONS and TAPERED_INCREMENTAL_PESTO_PSQT (both states of either
are covered); inputs (position, depth, starting accumulators, repetition
counters) are identical, no deadline interrupts the searches, and the
plain-minimax score is representable (within the float sentinels, as every
finite f32 evaluation is). -/
theorem c5_alpha_beta_selection_agrees [DecidableEq B] (r : Rules B M)
    (t : Nat → Bool) (mOn mOff : Nat)
    (hABon : moduleEnabled mOn ALPHA_BETA = true)
    (hABoff : moduleEnabled mOff ALPHA_BETA = false)
    (hTTon : moduleEnabled mOn TRANSPOSITION_TABLE = false)
    (hTToff : moduleEnabled mOff TRANSPOSITION_TABLE = false)
    (hInc : moduleEnabled mOn TAPERED_INCREMENTAL_PESTO_PSQT =
      moduleEnabled mOff TAPERED_INCREMENTAL_PESTO_PSQT)
    (hSE : moduleEnabled mOn SEARCH_EXTENSIONS =
      moduleEnabled mOff SEARCH_EXTENSIONS)
    (board : B) (depth fuel : Nat) (hfuel : depth + 5 ≤ fuel)
    (original : Bool) (wInc bInc : ℚ) (stOn stOff : RunSt B M)
    (hpred : stOn.prediction = stOff.prediction)
    (hbpt : stOn.boardPlayedTimes = stOff.boardPlayedTimes)
    (hbound : ∀ v, (nodeEvalRec ⟨r, mOff, t⟩ fuel board depth f32MIN
        f32MAX original false 0 wInc bInc stOff).1.eval = some v →
      f32MIN ≤ v ∧ v ≤ f32MAX) :
    (nodeEvalRec ⟨r, mOn, t⟩ fuel board depth f32MIN f32MAX original false
      0 wInc bInc stOn).1.eval =
      (nodeEvalRec ⟨r, mOff, t⟩ fuel board depth f32MIN f32MAX original
        false 0 wInc bInc stOff).1.eval ∧
    (nodeEvalRec ⟨r, mOn, t⟩ fuel board depth f32MIN f32MAX original false
      0 wInc bInc stOn).1.nextAction =
      (nodeEvalRec ⟨r, mOff, t⟩ fuel board depth f32MIN f32MAX original
        false 0 wInc bInc stOff).1.nextAction := by
  obtain ⟨gv, fv, hgv, hfv, hlo, hhi, hmid⟩ := triAll r t mOn mOff hABon
    hABoff hTTon hTToff hInc hSE fuel board depth f32MIN f32MAX
    original 0 wInc bInc stOn stOff (by omega) (by omega)
    f32MIN_le_f32MAX hpred hbpt
  have hbounds := hbound fv hfv
  have h1 : f32MIN ≤ gv := by
    by_contra hc
    have := hlo (not_le.mp hc)
    have := hbounds.1
    linarith
  have h2 : gv ≤ f32MAX := by
    by_contra hc
    have := hhi (not_le.mp hc)
    have := hbounds.2
    linarith
  obtain ⟨hgf, hna⟩ := hmid h1 h2
  constructor
  · rw [hgv, hfv, hgf]
  · exact hna

theorem c5_alpha_beta_selection_agrees_witness :
    moduleEnabled ALPHA_BETA ALPHA_BETA = true ∧
    moduleEnabled ALPHA_BETA TRANSPOSITION_TABLE = false ∧
    ((nodeEvalRec (⟨c5Rules, ALPHA_BETA, fun _ => false⟩ : Ctx Nat Nat) 16
        1 5 f32MIN f32MAX true false 0 0 0 emptySt).1.eval =
      (nodeEvalRec (⟨c5Rules, 0, fun _ => false⟩ : Ctx Nat Nat) 16 1 5
        f32MIN f32MAX true false 0 0 0 emptySt).1.eval ∧
    (nodeEvalRec (⟨c5Rules, ALPHA_BETA, fun _ => false⟩ : Ctx Nat Nat) 16
        1 5 f32MIN f32MAX true false 0 0 0 emptySt).1.nextAction =
      (nodeEvalRec (⟨c5Rules, 0, fun _ => false⟩ : Ctx Nat Nat) 16 1 5
        f32MIN f32MAX true false 0 0 0 emptySt).1.nextAction) :=
  ⟨rfl, rfl,
    c5_alpha_beta_selection_agrees c5Rules (fun _ => false) ALPHA_BETA 0
      rfl rfl rfl rfl rfl rfl
      1 5 16 (by omega) true 0 0 emptySt emptySt rfl rfl
      (fun v hv => nodeEvalRec_zero_inc_bounds
        (⟨c5Rules, 0, fun _ => false⟩ : Ctx Nat Nat) rfl rfl
        (by
          intro b f g
          constructor <;>
            (dsimp only [c5Rules]
             split_ifs <;> norm_num [f32MIN, f32MAX]))
        16 1 5 f32MIN f32MAX true 0 emptySt v hv)⟩

end ChessAlgo

namespace ChessAlgo

/-- C5 counterexample to the claim as stated: on the `c5Rules` tree at
depth 5 — a position whose plain-minimax values for the four root moves are
the pairwise-distinct 20, 22, 24 and 0, so the best move is unique — the
search with ALPHA_BETA enabled picks move 2 while the search with
ALPHA_BETA disabled and all other modules identical (transposition table
on in both) picks move 3.  The alpha-beta run cuts board 31 off after its
first line (23 > beta = 22), stores (31, depth 3, 23) in the table, and the
transposed node 27 reuses that bound as exact; the run without alpha-beta
stores the true 100 instead. -/
theorem c5_counterexample_cutoff_reuse_flips_selection :
    (nodeEvalRec c5CtxOn 16 1 5 f32MIN f32MAX true false 0 0 0
      emptySt).1.nextAction = some (Action.makeMove 2) ∧
    (nodeEvalRec c5CtxOff 16 1 5 f32MIN f32MAX true false 0 0 0
      emptySt).1.nextAction = some (Action.makeMove 3) ∧
    some (Action.makeMove 2) ≠ some (Action.makeMove (3 : Nat)) ∧
    (nodeEvalRec c5CtxPlain 16 1 5 f32MIN f32MAX true false 0 0 0
      emptySt).1.nextAction = some (Action.makeMove 2) ∧
    (nodeEvalRec c5CtxPlain 14 (c5Rules.makeMove 1 0) 4 f32MIN f32MAX true
      false 0 0 0 emptySt).1.eval = some 20 ∧
    (nodeEvalRec c5CtxPlain 14 (c5Rules.makeMove 1 1) 4 f32MIN f32MAX true
      false 0 0 0 emptySt).1.eval = some 22 ∧
    (nodeEvalRec c5CtxPlain 14 (c5Rules.makeMove 1 2) 4 f32MIN f32MAX true
      false 0 0 0 emptySt).1.eval = some 24 ∧
    (nodeEvalRec c5CtxPlain 14 (c5Rules.makeMove 1 3) 4 f32MIN f32MAX true
      false 0 0 0 emptySt).1.eval = some 0 := by
  set_option maxRecDepth 10000 in
  with_unfolding_all decide

end ChessAlgo
